import Mathlib

/-!
Shallow embedding of the IndexDev repository core
(src/app/services/index_calculator.py, src/app/cache/cache.py,
src/app/services/data_acquisition.py, src/app/routers/index_router.py).

Modelling conventions:
* Dates are integers counting days; day 0 is a Monday, so the Python
  `date.weekday()` convention (Monday = 0 .. Sunday = 6) is `d % 7`
  (Int.emod is non-negative for positive modulus, matching Python `%`).
* Python floats and SQL reals are modelled as rationals; `str(float)` /
  `float(str)` and JSON round-trips are value-preserving in the code paths
  modelled here, so cache values are modelled structurally.
* SQL tables are lists of rows; primary-key uniqueness is an explicit
  hypothesis (`DailyNodup`) where a proof needs it.
* Python `sorted` is a stable sort; it is modelled by insertion sort
  (`List.insertionSort r` with `r` true on ties keeps original order).
-/

/-- Python date.weekday(): Monday = 0 .. Sunday = 6. -/
def pyWeekday (d : ℤ) : ℤ := d % 7

/-- One row of the daily_data table: (symbol, date) primary key, price,
market_cap, volume. -/
structure DDRow where
  symbol : String
  date : ℤ
  price : ℚ
  market_cap : ℚ
  volume : ℚ
deriving DecidableEq, Repr

/-- The persistent relational store: daily_data, index_performance
(date primary key, daily_return), index_composition (date, symbol),
stocks (symbol, company_name, sector). -/
structure Store where
  daily : List DDRow
  perf : List (ℤ × ℚ)
  comp : List (ℤ × String)
  stocks : List (String × String × String)
deriving DecidableEq, Repr

/-- First row of daily_data with the given (symbol, date) key; under the
primary-key invariant there is at most one. -/
def priceOn (daily : List DDRow) (s : String) (d : ℤ) : Option ℚ :=
  (daily.find? (fun r => r.symbol = s ∧ r.date = d)).map (·.price)

/-- SQL CTE FixedTop100: symbols of daily_data rows at the previous date,
ordered by market_cap descending (tie order left unspecified by SQLite and
determinized here as table order via a stable sort), truncated to 100. -/
def fixedTop100 (daily : List DDRow) (prev : ℤ) : List String :=
  ((List.insertionSort (fun a b : DDRow => b.market_cap ≤ a.market_cap)
      (daily.filter (fun r => r.date = prev))).take 100).map (·.symbol)

/-- SQL CTE TwoDayPrices: daily_data joined to FixedTop100 restricted to
the two endpoint dates. -/
def twoDayPrices (daily : List DDRow) (cohort : List String) (prev cur : ℤ) :
    List DDRow :=
  daily.filter (fun r => cohort.contains r.symbol ∧ (r.date = prev ∨ r.date = cur))

/-- The LAG-based per-row simple return for a current-date row of
TwoDayPrices: price / LAG(price) - 1, NULL when there is no previous-date
row for the symbol (and NULL on division by zero, as in SQLite). -/
def lagReturn (tdp : List DDRow) (r : DDRow) (prev : ℤ) : Option ℚ :=
  (priceOn tdp r.symbol prev).bind
    (fun p0 => if p0 = 0 then none else some (r.price / p0 - 1))

/-- The current-date rows of TwoDayPrices (the rows the final SELECT
groups over). -/
def curRowsOf (daily : List DDRow) (prev cur : ℤ) : List DDRow :=
  (twoDayPrices daily (fixedTop100 daily prev) prev cur).filter (fun r => r.date = cur)

/-- The non-NULL per-symbol returns the AVG aggregates. -/
def retsOf (daily : List DDRow) (prev cur : ℤ) : List ℚ :=
  (curRowsOf daily prev cur).filterMap
    (fun r => lagReturn (twoDayPrices daily (fixedTop100 daily prev) prev cur) r prev)

/-- The daily-return SQL query of IndexCalculator.build_index (the cache
miss path): AVG of the non-NULL LAG returns over current-date rows.
Outcome none: no current-date group at all (no row returned, the day is
skipped); some none: a group whose AVG is NULL (float(None) raises and the
day is skipped); some (some q): the computed equal-weighted return. -/
def computeDailyReturn (daily : List DDRow) (prev cur : ℤ) : Option (Option ℚ) :=
  if (curRowsOf daily prev cur).isEmpty then none
  else if (retsOf daily prev cur).isEmpty then some none
  else some (some ((retsOf daily prev cur).sum / (retsOf daily prev cur).length))

/-- Spec-side definition (for claim C1): the prior-day cohort symbols that
have observations on both endpoint dates. -/
def comparableSymbols (daily : List DDRow) (prev cur : ℤ) : List String :=
  (fixedTop100 daily prev).filter
    (fun s => (priceOn daily s prev).isSome && (priceOn daily s cur).isSome)

/-- Spec-side definition (for claim C1): simple return price(t)/price(t-1) - 1
of one symbol, read off the store. -/
def simpleReturn (daily : List DDRow) (s : String) (prev cur : ℤ) : ℚ :=
  ((priceOn daily s cur).getD 0) / ((priceOn daily s prev).getD 0) - 1

/-- Spec-side definition (for claim C1): the unweighted arithmetic mean of
the simple returns over exactly the comparable cohort symbols. -/
def specDailyReturn (daily : List DDRow) (prev cur : ℤ) : ℚ :=
  let cs := comparableSymbols daily prev cur
  (cs.map (fun s => simpleReturn daily s prev cur)).sum / cs.length

/-- Primary-key invariant of daily_data: (symbol, date) pairs are distinct. -/
def DailyNodup (daily : List DDRow) : Prop :=
  (daily.map (fun r => (r.symbol, r.date))).Nodup

/-- Positivity invariant: every stored price is positive (the acquisition
pipeline only stores rows with price > 0). -/
def DailyPos (daily : List DDRow) : Prop :=
  ∀ r ∈ daily, 0 < r.price

example : pyWeekday 5 = 5 := by decide
example : pyWeekday 6 = 6 := by decide
example : pyWeekday (-1) = 6 := by decide

/-- One record of the composition snapshot returned by
get_composition_for_date. -/
structure CompRec where
  symbol : String
  name : String
  category : String
  price : ℚ
  market_cap : ℚ
deriving DecidableEq, Repr

/-- Values held in the Redis cache, modelled structurally (the code stores
str(float) or JSON and the round-trips on the modelled paths are
value-preserving): a stringified float, a get_performance range result, a
composition-changes diff, and a composition snapshot list. -/
inductive CVal
  | num (q : ℚ)
  | perfVal (daily : List (ℤ × ℚ)) (cum : ℚ)
  | changesVal (added removed : List String)
  | compVal (rows : List CompRec)
deriving DecidableEq, Repr

/-- Cache keys used by the code; the string formats are pairwise
non-overlapping, so the key space is modelled as an inductive type.
Constructors correspond to the key formats
daily_return:d, cumulative_return:s:e, index_perf:range:s:e,
index_perf:daily:d, composition_changes:d, top100_stocks:d. -/
inductive Key
  | dailyReturn (d : ℤ)
  | cumulativeRange (s e : ℤ)
  | perfRange (s e : ℤ)
  | perfDaily (d : ℤ)
  | compChanges (d : ℤ)
  | top100 (d : ℤ)
deriving DecidableEq, Repr

/-- The cache is a key-value map, modelled as an association list. -/
abbrev Cache := List (Key × CVal)

def cacheGet (c : Cache) (k : Key) : Option CVal :=
  (c.find? (fun kv => kv.1 = k)).map (·.2)

def cacheSet (c : Cache) (k : Key) (v : CVal) : Cache :=
  (k, v) :: c.filter (fun kv => ¬ kv.1 = k)

/-- Python float(value) on a cached value: succeeds exactly on a
stringified number (any other cached shape raises ValueError, which the
code treats as a miss). -/
def cvalToFloat : CVal → Option ℚ
  | CVal.num q => some q
  | _ => none

/-- Python truthiness of a cached value as used by the code: a float is
truthy iff nonzero, a dict with keys is truthy, a list is truthy iff
nonempty. -/
def pyTruthy : CVal → Bool
  | CVal.num q => q != 0
  | CVal.perfVal _ _ => true
  | CVal.changesVal _ _ => true
  | CVal.compVal rows => !rows.isEmpty

/-- The calendar days from s to e inclusive, in ascending order (the
while current_date <= end_date loops that always advance). -/
def dateRange (s e : ℤ) : List ℤ :=
  (List.range (e + 1 - s).toNat).map (fun i : ℕ => s + (i : ℤ))

/-- INSERT OR REPLACE into index_performance keyed by date (position of a
replaced row is irrelevant to every query issued against this table). -/
def upsertPerf (perf : List (ℤ × ℚ)) (d : ℤ) (q : ℚ) : List (ℤ × ℚ) :=
  if perf.any (fun p => p.1 = d) then
    perf.map (fun p => if p.1 = d then (d, q) else p)
  else perf ++ [(d, q)]

def upsertPerfMany (perf : List (ℤ × ℚ)) (rows : List (ℤ × ℚ)) : List (ℤ × ℚ) :=
  rows.foldl (fun acc p => upsertPerf acc p.1 p.2) perf

/-- Mutable state of the build_index while loop. -/
structure BuildState where
  prev : ℤ
  cur : ℤ
  dates : List ℤ
  returns : List ℚ
  cum : ℚ
  cache : Cache
deriving Repr

/-- One non-skipped iteration of the build_index loop at date st.cur:
cache-aside read of the daily return (a cached value that does not parse
as a float falls through to the database), database computation on miss
with write-back to cache; a day with no computable return contributes
nothing. -/
def buildDay (store : Store) (st : BuildState) : BuildState :=
  match (cacheGet st.cache (Key.dailyReturn st.cur)).bind cvalToFloat with
  | some r =>
      { st with dates := st.dates ++ [st.cur], returns := st.returns ++ [r],
                cum := st.cum * (1 + r) }
  | none =>
      match computeDailyReturn store.daily st.prev st.cur with
      | some (some r) =>
          { st with dates := st.dates ++ [st.cur], returns := st.returns ++ [r],
                    cum := st.cum * (1 + r),
                    cache := cacheSet st.cache (Key.dailyReturn st.cur) (CVal.num r) }
      | _ => st

/-- The build_index while loop. The weekday test reproduces the source
exactly: when pyWeekday cur > 5 the loop continues WITHOUT advancing
current_date, so the recursion re-enters the same state; fuel counts loop
iterations and none models non-termination (running out of fuel in a state
the loop can never leave). -/
def buildLoop (store : Store) (e : ℤ) : ℕ → BuildState → Option BuildState
  | 0, _ => none
  | fuel + 1, st =>
      if e < st.cur then some st
      else if 5 < pyWeekday st.cur then buildLoop store e fuel st
      else
        buildLoop store e fuel
          { buildDay store st with prev := st.cur, cur := st.cur + 1 }

/-- The value returned by build_index: the date-to-return mapping (a dict
built in iteration order) and the compounded cumulative return. -/
structure BuildResult where
  daily : List (ℤ × ℚ)
  cum : ℚ
deriving DecidableEq, Repr

/-- IndexCalculator.build_index: run the loop from start_date with
previous_date = start_date - 1, then subtract 1 from the compounded
product, cache the whole-window cumulative return, and upsert every
computed day into index_performance. -/
def buildIndex (fuel : ℕ) (store : Store) (cache : Cache) (s e : ℤ) :
    Option (BuildResult × Store × Cache) :=
  match buildLoop store e fuel ⟨s - 1, s, [], [], 1, cache⟩ with
  | none => none
  | some st =>
      some (⟨st.dates.zip st.returns, st.cum - 1⟩,
            { store with perf := upsertPerfMany store.perf (st.dates.zip st.returns) },
            cacheSet st.cache (Key.cumulativeRange s e) (CVal.num (st.cum - 1)))

/-- One day of the get_performance cache scan: a cached per-day value that
parses as a float is collected, otherwise the day is recorded missing. -/
def perfScanStep (cache : Cache) (acc : List (ℤ × ℚ) × List ℤ) (d : ℤ) :
    List (ℤ × ℚ) × List ℤ :=
  match (cacheGet cache (Key.perfDaily d)).bind cvalToFloat with
  | some q => (acc.1 ++ [(d, q)], acc.2)
  | none => (acc.1, acc.2 ++ [d])

/-- The batched query SELECT date, daily_return FROM index_performance
WHERE date IN missing ORDER BY date. -/
def perfFetch (store : Store) (missing : List ℤ) : List (ℤ × ℚ) :=
  List.insertionSort (fun a b : ℤ × ℚ => a.1 ≤ b.1)
    (store.perf.filter (fun p => missing.contains p.1))

/-- The cumulative return computed by get_performance: fold over the
assembled day map in ascending order of its keys (sorted(daily_returns.keys())),
minus 1. -/
def cumulativeOf (l : List (ℤ × ℚ)) : ℚ :=
  ((List.insertionSort (fun a b : ℤ × ℚ => a.1 ≤ b.1) l).foldl
      (fun c p => c * (1 + p.2)) 1) - 1

/-- The per-day cache hits collected by the get_performance scan. -/
def perfHits (cache : Cache) (days : List ℤ) : List (ℤ × ℚ) :=
  (days.foldl (perfScanStep cache) ([], [])).1

/-- The days the get_performance scan found missing. -/
def perfMissing (cache : Cache) (days : List ℤ) : List ℤ :=
  (days.foldl (perfScanStep cache) ([], [])).2

/-- The daily_returns dict get_performance assembles: cache hits in scan
order followed by the batched store fetch of the missing days. -/
def perfAssembled (store : Store) (cache : Cache) (s e : ℤ) : List (ℤ × ℚ) :=
  perfHits cache (dateRange s e) ++ perfFetch store (perfMissing cache (dateRange s e))

/-- IndexCalculator.get_performance: whole-range cache hit returns the
cached value verbatim; otherwise assemble per-day returns from cache then
one batched store query, re-cache fetched days individually, compound
in ascending date order, and cache the whole-range result. -/
def getPerformance (store : Store) (cache : Cache) (s e : ℤ) : CVal × Cache :=
  match cacheGet cache (Key.perfRange s e) with
  | some v => (v, cache)
  | none =>
      (CVal.perfVal (perfAssembled store cache s e)
         (cumulativeOf (perfAssembled store cache s e)),
       cacheSet
         ((perfFetch store (perfMissing cache (dateRange s e))).foldl
            (fun c2 p => cacheSet c2 (Key.perfDaily p.1) (CVal.num p.2)) cache)
         (Key.perfRange s e)
         (CVal.perfVal (perfAssembled store cache s e)
            (cumulativeOf (perfAssembled store cache s e))))

/-- Symbol set of index_composition at a date (a Python set built from the
query rows; dedup keeps the first occurrence). -/
def compSymbols (store : Store) (d : ℤ) : List String :=
  ((store.comp.filter (fun p => p.1 = d)).map (·.2)).dedup

/-- Lexicographically ascending sort of symbols (Python sorted on str). -/
def sortStr (l : List String) : List String :=
  List.insertionSort (fun a b : String => a ≤ b) l

/-- The added-symbols set of the composition diff for date d against
d - 1, before sorting. -/
def addedOf (store : Store) (d : ℤ) : List String :=
  (compSymbols store d).filter (fun s => !(compSymbols store (d - 1)).contains s)

/-- The removed-symbols set of the composition diff for date d against
d - 1, before sorting. -/
def removedOf (store : Store) (d : ℤ) : List String :=
  (compSymbols store (d - 1)).filter (fun s => !(compSymbols store d).contains s)

/-- The sorted diff pair cached and reported for date d. -/
def changesOf (store : Store) (d : ℤ) : List String × List String :=
  (sortStr (addedOf store d), sortStr (removedOf store d))

/-- One day of get_composition_changes. On a cache hit the code calls
cached_result.get, which raises AttributeError on a non-dict cached JSON
value and the surrounding handler re-raises: modelled as Except.error.
On a miss the added/removed sets are computed from index_composition at
date and date - 1, sorted, cached unconditionally, and accumulated only
when non-trivial. -/
def changesStep (store : Store)
    (acc : Except Unit (List (ℤ × List String × List String) × Cache)) (d : ℤ) :
    Except Unit (List (ℤ × List String × List String) × Cache) :=
  match acc with
  | Except.error u => Except.error u
  | Except.ok (res, cache) =>
    match cacheGet cache (Key.compChanges d) with
    | some (CVal.changesVal a r) =>
        Except.ok ((if !a.isEmpty || !r.isEmpty then res ++ [(d, a, r)] else res), cache)
    | some _ => Except.error ()
    | none =>
        Except.ok ((if !(addedOf store d).isEmpty || !(removedOf store d).isEmpty
                    then res ++ [(d, changesOf store d)] else res),
                   cacheSet cache (Key.compChanges d)
                     (CVal.changesVal (changesOf store d).1 (changesOf store d).2))

/-- IndexCalculator.get_composition_changes over a date range: day-by-day
delegation accumulating only non-empty diffs into a date-ordered mapping. -/
def getCompositionChanges (store : Store) (cache : Cache) (s e : ℤ) :
    Except Unit (List (ℤ × List String × List String) × Cache) :=
  (dateRange s e).foldl (changesStep store) (Except.ok ([], cache))

/-- The LEFT JOIN row of the get_composition_for_date query for one
composition symbol: stock metadata and daily observation may be NULL; the
first component is the raw dd.market_cap used by ORDER BY (NULL sorts last
under DESC in SQLite), the second the record built by the Python loop,
where a NULL or zero price/market_cap becomes 0.0 and a NULL name or
sector becomes the empty string. -/
def compJoinRow (store : Store) (d : ℤ) (sym : String) : Option ℚ × CompRec :=
  let st := store.stocks.find? (fun t => t.1 = sym)
  let dd := store.daily.find? (fun r => r.symbol = sym ∧ r.date = d)
  (dd.map (·.market_cap),
   { symbol := sym
     name := (st.map (fun t => t.2.1)).getD ""
     category := (st.map (fun t => t.2.2)).getD ""
     price := (dd.map (·.price)).getD 0
     market_cap := (dd.map (·.market_cap)).getD 0 })

/-- A nullable SQL value under the SQLite ordering, where NULL is smaller
than every value (WithBot ℚ is definitionally Option ℚ). -/
def sqlCap (a : Option ℚ) : WithBot ℚ := a

/-- The miss-path snapshot of get_composition_for_date: join rows for the
date ordered by dd.market_cap descending (NULLs last; tie order
determinized as table order via the stable sort). -/
def compSnapshot (store : Store) (d : ℤ) : List CompRec :=
  (List.insertionSort
      (fun a b : Option ℚ × CompRec => sqlCap b.1 ≤ sqlCap a.1)
      ((store.comp.filter (fun p => p.1 = d)).map (fun p => compJoinRow store d p.2))).map
    (fun p => p.2)

/-- IndexCalculator.get_composition_for_date: cache-aside with a truthy
cached value returned verbatim; on miss (or a falsy cached value) the
snapshot is computed from the store and cached only when non-empty. -/
def getCompositionForDate (store : Store) (cache : Cache) (d : ℤ) : CVal × Cache :=
  match cacheGet cache (Key.top100 d) with
  | some v =>
      if pyTruthy v then (v, cache)
      else
        (CVal.compVal (compSnapshot store d),
         if (compSnapshot store d).isEmpty then cache
         else cacheSet cache (Key.top100 d) (CVal.compVal (compSnapshot store d)))
  | none =>
      (CVal.compVal (compSnapshot store d),
       if (compSnapshot store d).isEmpty then cache
       else cacheSet cache (Key.top100 d) (CVal.compVal (compSnapshot store d)))

/-- A store with one symbol priced 100 on the Friday (day 4) and 110 on
the Saturday (day 5): concrete input for the weekend-handling claims. -/
def satStore : Store := ⟨[⟨"A", 4, 100, 1000, 10⟩, ⟨"A", 5, 110, 1100, 10⟩], [], [], []⟩

lemma buildLoop_stuck (store : Store) (e : ℤ) (st : BuildState)
    (hle : st.cur ≤ e) (hwd : 5 < pyWeekday st.cur) :
    ∀ fuel, buildLoop store e fuel st = none := by
  intro fuel
  induction fuel with
  | zero => rfl
  | succ n ih =>
      unfold buildLoop
      rw [if_neg (by omega), if_pos hwd]
      exact ih

/-- Claim C10 (code_bug evaluation): on a range that starts at a Sunday
(day 6; pyWeekday 6 = 6 > 5), the build_index loop body hits the
weekday > 5 branch, whose continue does not advance current_date, so no
iteration bound suffices: the loop never terminates, for every store and
cache. -/
theorem buildIndex_sunday_diverges :
    ∀ (store : Store) (cache : Cache) (fuel : ℕ),
      buildIndex fuel store cache 6 6 = none := by
  intro store cache fuel
  unfold buildIndex
  rw [show (6 : ℤ) - 1 = 5 by norm_num,
    buildLoop_stuck store 6 ⟨5, 6, [], [], 1, cache⟩ (by norm_num)
      (show (5 : ℤ) < pyWeekday 6 by decide) fuel]

/-- Claim C3 (code_bug evaluation): day 5 is a Saturday (pyWeekday 5 = 5,
not > 5), yet build_index over the single-Saturday range computes its
return from the store, includes it in the result, and writes it to the
cache - the weekend day is processed, not skipped. -/
theorem buildIndex_processes_saturday :
    pyWeekday 5 = 5 ∧
    buildIndex 2 satStore [] 5 5 =
      some (⟨[(5, 1/10)], 1/10⟩,
        ⟨satStore.daily, [(5, 1/10)], [], []⟩,
        [(Key.cumulativeRange 5 5, CVal.num (1/10)),
         (Key.dailyReturn 5, CVal.num (1/10))]) := by
  constructor
  · decide
  · simp only [buildIndex, buildLoop, buildDay, cacheGet, cacheSet, cvalToFloat, pyWeekday,
      computeDailyReturn, curRowsOf, retsOf, fixedTop100, twoDayPrices, lagReturn, priceOn, satStore,
      upsertPerfMany, upsertPerf,
      List.insertionSort, List.orderedInsert, List.filter, List.filterMap, List.find?]
    norm_num
    decide

/-- The store with no rows at all. -/
def emptyStore : Store := ⟨[], [], [], []⟩

/-- Claim C4 (code_bug evaluation): over a range with no cached day and no
index_performance row, get_performance returns the populated-shaped dict
with an empty daily_returns map and cumulative_return 0 (and caches it),
and that dict is truthy, so the router test `if not performances` never
fires and the caller receives it with HTTP 200 instead of the 404
not-found the router tries to raise. -/
theorem getPerformance_empty_not_distinguished :
    getPerformance emptyStore [] 2 2 =
      (CVal.perfVal [] 0, [(Key.perfRange 2 2, CVal.perfVal [] 0)]) ∧
    pyTruthy (CVal.perfVal [] 0) = true := by
  constructor
  · simp only [getPerformance, perfHits, perfMissing, perfAssembled, cacheGet, cacheSet, perfScanStep, perfFetch, cumulativeOf,
      dateRange, cvalToFloat, emptyStore, List.insertionSort, List.orderedInsert,
      List.filter, List.filterMap, List.find?, List.foldl, List.range, List.map]
    norm_num
  · rfl

/-- Outcome of one call to the backing Redis client: a value, or a raised
RedisError. -/
inductive ROut (α : Type)
  | ok (a : α)
  | err
deriving DecidableEq, Repr

/-- Behaviour of the backing store for the duration of one RedisCache
call: what ping, get, set and delete would do, and which payloads parse
as JSON. -/
structure RBeh where
  ping : ROut Unit
  getv : String → ROut (Option String)
  setv : String → String → ℕ → ROut Unit
  delv : String → ROut Unit
  isJson : String → Bool

/-- A value returned by RedisCache.get: the JSON-decoded payload when the
stored string parses as JSON, the raw string otherwise. -/
inductive RVal
  | decoded (s : String)
  | raw (s : String)
deriving DecidableEq, Repr

/-- RedisCache.ensure_connected: sticky flag short-circuit, else ping with
RedisError caught inside; returns (result, new flag). -/
def ensureConnected (conn : Bool) (b : RBeh) : Bool × Bool :=
  if conn then (true, true)
  else
    match b.ping with
    | ROut.ok _ => (true, true)
    | ROut.err => (false, false)

/-- The try-block body of RedisCache.get, as an Except computation whose
error is a RedisError escaping to the method's except handler. The inner
json.loads failure is handled inside the body (raw string fallback), and
Python `if value:` is false for the empty string. -/
def redisGetBody (conn : Bool) (b : RBeh) (k : String) :
    Except Unit (Option RVal) × Bool :=
  let ec := ensureConnected conn b
  if !ec.1 then (Except.ok none, ec.2)
  else
    match b.getv k with
    | ROut.err => (Except.error (), ec.2)
    | ROut.ok none => (Except.ok none, ec.2)
    | ROut.ok (some s) =>
        if s = "" then (Except.ok none, ec.2)
        else if b.isJson s then (Except.ok (some (RVal.decoded s)), ec.2)
        else (Except.ok (some (RVal.raw s)), ec.2)

/-- RedisCache.get including its except-RedisError handler: the outer
Except layer witnesses that no exception escapes the method. -/
def redisGet (conn : Bool) (b : RBeh) (k : String) :
    Except Unit (Option RVal × Bool) :=
  match redisGetBody conn b k with
  | (Except.ok v, c) => Except.ok (v, c)
  | (Except.error _, c) => Except.ok (none, c)

/-- The try-block body of RedisCache.set (the value is already a string
in every call site modelled; expire is forwarded to the client). -/
def redisSetBody (conn : Bool) (b : RBeh) (k v : String) (expire : ℕ) :
    Except Unit Bool × Bool :=
  let ec := ensureConnected conn b
  if !ec.1 then (Except.ok false, ec.2)
  else
    match b.setv k v expire with
    | ROut.err => (Except.error (), ec.2)
    | ROut.ok _ => (Except.ok true, ec.2)

/-- RedisCache.set including its except-RedisError handler. -/
def redisSet (conn : Bool) (b : RBeh) (k v : String) (expire : ℕ) :
    Except Unit (Bool × Bool) :=
  match redisSetBody conn b k v expire with
  | (Except.ok r, c) => Except.ok (r, c)
  | (Except.error _, c) => Except.ok (false, c)

/-- The try-block body of RedisCache.delete. -/
def redisDelBody (conn : Bool) (b : RBeh) (k : String) :
    Except Unit Bool × Bool :=
  let ec := ensureConnected conn b
  if !ec.1 then (Except.ok false, ec.2)
  else
    match b.delv k with
    | ROut.err => (Except.error (), ec.2)
    | ROut.ok _ => (Except.ok true, ec.2)

/-- RedisCache.delete including its except-RedisError handler. -/
def redisDel (conn : Bool) (b : RBeh) (k : String) :
    Except Unit (Bool × Bool) :=
  match redisDelBody conn b k with
  | (Except.ok r, c) => Except.ok (r, c)
  | (Except.error _, c) => Except.ok (false, c)

/-- Claim C5: for every key, value, TTL, connection-flag state and backing
store behaviour, get/set/delete return a plain value (the outer Except is
always ok: no RedisError escapes), and on an operational failure of the
single call - an unreachable store on first contact, or a failing client
operation even when the sticky flag says reachable - get yields absent
and set/delete yield failed. -/
theorem redisCache_soft_fails (conn : Bool) (b : RBeh) (k v : String) (expire : ℕ) :
    (∃ r, redisGet conn b k = Except.ok r) ∧
    (∃ r, redisSet conn b k v expire = Except.ok r) ∧
    (∃ r, redisDel conn b k = Except.ok r) ∧
    (conn = false → b.ping = ROut.err →
      redisGet conn b k = Except.ok (none, false) ∧
      redisSet conn b k v expire = Except.ok (false, false) ∧
      redisDel conn b k = Except.ok (false, false)) ∧
    (b.getv k = ROut.err → (conn = true ∨ b.ping = ROut.ok ()) →
      redisGet conn b k = Except.ok (none, true)) ∧
    (b.setv k v expire = ROut.err → (conn = true ∨ b.ping = ROut.ok ()) →
      redisSet conn b k v expire = Except.ok (false, true)) ∧
    (b.delv k = ROut.err → (conn = true ∨ b.ping = ROut.ok ()) →
      redisDel conn b k = Except.ok (false, true)) := by
  refine ⟨?_, ?_, ?_, ?_, ?_, ?_, ?_⟩
  · rcases h : redisGetBody conn b k with ⟨r, c⟩
    cases r <;> simp [redisGet, h]
  · rcases h : redisSetBody conn b k v expire with ⟨r, c⟩
    cases r <;> simp [redisSet, h]
  · rcases h : redisDelBody conn b k with ⟨r, c⟩
    cases r <;> simp [redisDel, h]
  · intro hc hp
    subst hc
    unfold redisGet redisGetBody redisSet redisSetBody redisDel redisDelBody ensureConnected
    simp [hp]
  · intro hg hc
    unfold redisGet redisGetBody ensureConnected
    rcases hc with hc | hp
    · subst hc; simp [hg]
    · cases conn <;> simp [hp, hg]
  · intro hs hc
    unfold redisSet redisSetBody ensureConnected
    rcases hc with hc | hp
    · subst hc; simp [hs]
    · cases conn <;> simp [hp, hs]
  · intro hd hc
    unfold redisDel redisDelBody ensureConnected
    rcases hc with hc | hp
    · subst hc; simp [hd]
    · cases conn <;> simp [hp, hd]

/-- A concrete behaviour whose every client operation fails. -/
def allErrBeh : RBeh :=
  ⟨ROut.err, fun _ => ROut.err, fun _ _ _ => ROut.err, fun _ => ROut.err, fun _ => false⟩

/-- Witness for claim C5 at a concrete input: a store that was reachable
(sticky flag true) but whose get/set/delete now fail degrades each call to
absent/failed without raising. -/
theorem redisCache_soft_fails_witness :
    redisGet true allErrBeh "k" = Except.ok (none, true) ∧
    redisSet true allErrBeh "k" "v" 60 = Except.ok (false, true) ∧
    redisDel true allErrBeh "k" = Except.ok (false, true) := by
  refine ⟨?_, ?_, ?_⟩
  · exact (redisCache_soft_fails true allErrBeh "k" "v" 60).2.2.2.2.1 rfl (Or.inl rfl)
  · exact (redisCache_soft_fails true allErrBeh "k" "v" 60).2.2.2.2.2.1 rfl (Or.inl rfl)
  · exact (redisCache_soft_fails true allErrBeh "k" "v" 60).2.2.2.2.2.2 rfl (Or.inl rfl)

lemma dateRange_single (d : ℤ) : dateRange d d = [d] := by
  unfold dateRange
  rw [show (d + 1 - d).toNat = 1 by omega, show List.range 1 = [0] from rfl]
  simp

lemma not_contains_iff (l : List String) (s : String) : (!l.contains s) = true ↔ s ∉ l := by
  simp [List.elem_iff]

lemma mem_compSymbols (store : Store) (d : ℤ) (s : String) :
    s ∈ compSymbols store d ↔ (d, s) ∈ store.comp := by
  unfold compSymbols
  rw [List.mem_dedup]
  constructor
  · intro h
    rcases List.mem_map.mp h with ⟨p, hp, rfl⟩
    rcases List.mem_filter.mp hp with ⟨hmem, hd⟩
    have : p.1 = d := by simpa using hd
    rcases p with ⟨p1, p2⟩
    simp only at this ⊢
    rwa [this] at hmem
  · intro h
    exact List.mem_map.mpr ⟨(d, s), List.mem_filter.mpr ⟨h, by simp⟩, rfl⟩

lemma mem_sortStr (l : List String) (s : String) : s ∈ sortStr l ↔ s ∈ l :=
  (List.perm_insertionSort _ l).mem_iff

lemma sortStr_sorted (l : List String) : (sortStr l).Sorted (· ≤ ·) :=
  List.sorted_insertionSort _ l

lemma sortStr_nodup (l : List String) (h : l.Nodup) : (sortStr l).Nodup :=
  ((List.perm_insertionSort _ l).nodup_iff).mpr h

lemma sortStr_eq_nil_iff (l : List String) : sortStr l = [] ↔ l = [] := by
  constructor
  · intro h
    have := (List.perm_insertionSort (fun a b : String => a ≤ b) l)
    rw [sortStr] at h
    rw [h] at this
    exact this.symm.eq_nil
  · intro h
    rw [h]
    rfl

lemma sortStr_isEmpty (l : List String) : (sortStr l).isEmpty = l.isEmpty := by
  rcases h : sortStr l with _ | ⟨a, rest⟩
  · rw [(sortStr_eq_nil_iff l).mp h]
  · rcases hl : l with _ | ⟨b, rest2⟩
    · rw [hl] at h
      simp [sortStr, List.insertionSort] at h
    · rfl

lemma changesInclude {α : Type} (aR rR : List String) (x y : α) :
    (if !aR.isEmpty || !rR.isEmpty then x else y) =
    (if (sortStr aR).isEmpty && (sortStr rR).isEmpty then y else x) := by
  cases haR : aR.isEmpty <;> cases hrR : rR.isEmpty <;>
    simp [sortStr_isEmpty, haR, hrR]

/-- Claim C6: on the computing (cache miss) path for date d, the
composition diff against d - 1 has added = current minus previous symbol
set and removed = previous minus current, both sorted lexicographically
and duplicate-free; the diff is written to the cache even when empty, and
the date appears in the aggregated mapping returned for the range exactly
when the diff is non-trivial. -/
theorem compChanges_spec (store : Store) (cache : Cache) (d : ℤ)
    (hmiss : cacheGet cache (Key.compChanges d) = none) :
    ∃ added removed : List String,
      (∀ s, s ∈ added ↔ (d, s) ∈ store.comp ∧ (d - 1, s) ∉ store.comp) ∧
      (∀ s, s ∈ removed ↔ (d - 1, s) ∈ store.comp ∧ (d, s) ∉ store.comp) ∧
      added.Sorted (· ≤ ·) ∧ removed.Sorted (· ≤ ·) ∧
      added.Nodup ∧ removed.Nodup ∧
      getCompositionChanges store cache d d =
        Except.ok
          ((if added.isEmpty && removed.isEmpty then [] else [(d, added, removed)]),
           cacheSet cache (Key.compChanges d) (CVal.changesVal added removed)) := by
  refine ⟨sortStr ((compSymbols store d).filter
            (fun s => !(compSymbols store (d - 1)).contains s)),
          sortStr ((compSymbols store (d - 1)).filter
            (fun s => !(compSymbols store d).contains s)),
          ?_, ?_, sortStr_sorted _, sortStr_sorted _, ?_, ?_, ?_⟩
  · intro s
    rw [mem_sortStr, List.mem_filter, not_contains_iff, mem_compSymbols, mem_compSymbols]
  · intro s
    rw [mem_sortStr, List.mem_filter, not_contains_iff, mem_compSymbols, mem_compSymbols]
  · exact sortStr_nodup _ (List.Nodup.filter _ (List.nodup_dedup _))
  · exact sortStr_nodup _ (List.Nodup.filter _ (List.nodup_dedup _))
  · unfold getCompositionChanges
    rw [dateRange_single]
    simp only [List.foldl, changesStep, hmiss, List.nil_append, addedOf, removedOf, changesOf]
    rw [changesInclude]

/-- The composition store of the spec's worked example: day 1 = {A,B,C},
day 2 = {B,C,D}. -/
def c6store : Store :=
  ⟨[], [], [(1, "A"), (1, "B"), (1, "C"), (2, "B"), (2, "C"), (2, "D")], []⟩

/-- Witness for claim C6 at the spec's worked example, on an empty cache
(the miss hypothesis holds by rfl). -/
theorem compChanges_spec_witness :
    cacheGet ([] : Cache) (Key.compChanges 2) = none ∧
    ∃ added removed : List String,
      (∀ s, s ∈ added ↔ ((2 : ℤ), s) ∈ c6store.comp ∧ ((2 : ℤ) - 1, s) ∉ c6store.comp) ∧
      (∀ s, s ∈ removed ↔ ((2 : ℤ) - 1, s) ∈ c6store.comp ∧ ((2 : ℤ), s) ∉ c6store.comp) ∧
      added.Sorted (· ≤ ·) ∧ removed.Sorted (· ≤ ·) ∧
      added.Nodup ∧ removed.Nodup ∧
      getCompositionChanges c6store [] 2 2 =
        Except.ok
          ((if added.isEmpty && removed.isEmpty then [] else [(2, added, removed)]),
           cacheSet [] (Key.compChanges 2) (CVal.changesVal added removed)) :=
  ⟨rfl, compChanges_spec c6store [] 2 rfl⟩

/-- Sanity evaluation of the spec's worked example: added = [D],
removed = [A], sorted, and the non-trivial diff is both cached and
reported. -/
example :
    getCompositionChanges c6store [] 2 2 =
      Except.ok ([(2, ["D"], ["A"])],
        [(Key.compChanges 2, CVal.changesVal ["D"] ["A"])]) := by
  rfl

lemma cumulativeOf_eq_prod (l : List (ℤ × ℚ)) :
    cumulativeOf l = (l.map (fun p => 1 + p.2)).prod - 1 := by
  unfold cumulativeOf
  have hperm := List.perm_insertionSort (fun a b : ℤ × ℚ => a.1 ≤ b.1) l
  rw [← List.Perm.prod_eq (hperm.map (fun p => 1 + p.2))]
  congr 1
  rw [List.prod_eq_foldl, List.foldl_map]

lemma cumulativeOf_perm (l l' : List (ℤ × ℚ)) (h : l.Perm l') :
    cumulativeOf l = cumulativeOf l' := by
  rw [cumulativeOf_eq_prod, cumulativeOf_eq_prod, List.Perm.prod_eq (h.map _)]

lemma buildDay_cases (store : Store) (st : BuildState) :
    buildDay store st = st ∨
    ∃ r c, buildDay store st =
      { prev := st.prev, cur := st.cur, dates := st.dates ++ [st.cur],
        returns := st.returns ++ [r], cum := st.cum * (1 + r), cache := c } := by
  unfold buildDay
  cases (cacheGet st.cache (Key.dailyReturn st.cur)).bind cvalToFloat with
  | some r => exact Or.inr ⟨r, st.cache, rfl⟩
  | none =>
      cases h2 : computeDailyReturn store.daily st.prev st.cur with
      | some o =>
          cases o with
          | some r => exact Or.inr ⟨r, _, rfl⟩
          | none => exact Or.inl rfl
      | none => exact Or.inl rfl

lemma buildLoop_inv (store : Store) (e : ℤ) :
    ∀ (fuel : ℕ) (st st2 : BuildState), buildLoop store e fuel st = some st2 →
      st.dates.length = st.returns.length →
      st.cum = (st.returns.map (fun r => 1 + r)).prod →
      st.dates.Sorted (· < ·) → (∀ d ∈ st.dates, d < st.cur) →
      st2.dates.length = st2.returns.length ∧
      st2.cum = (st2.returns.map (fun r => 1 + r)).prod ∧
      st2.dates.Sorted (· < ·) := by
  intro fuel
  induction fuel with
  | zero => intro st st2 h; exact absurd h (by simp [buildLoop])
  | succ n ih =>
      intro st st2 h hlen hcum hsort hlt
      rw [buildLoop] at h
      by_cases hend : e < st.cur
      · rw [if_pos hend] at h
        cases h
        exact ⟨hlen, hcum, hsort⟩
      · rw [if_neg hend] at h
        by_cases hwd : 5 < pyWeekday st.cur
        · rw [if_pos hwd] at h
          exact ih st st2 h hlen hcum hsort hlt
        · rw [if_neg hwd] at h
          rcases buildDay_cases store st with hbd | ⟨r, c, hbd⟩
          · rw [hbd] at h
            refine ih _ st2 h hlen hcum hsort ?_
            intro d hd
            show d < st.cur + 1
            exact lt_trans (hlt d hd) (by omega)
          · rw [hbd] at h
            refine ih _ st2 h ?_ ?_ ?_ ?_
            · simp [hlen]
            · simp [hcum, List.prod_append]
            · refine List.pairwise_append.mpr ⟨hsort, List.sorted_singleton _, ?_⟩
              intro a ha b hb
              rw [List.mem_singleton] at hb
              exact hb ▸ hlt a ha
            · intro d hd
              show d < st.cur + 1
              rcases List.mem_append.mp hd with hd | hd
              · exact lt_trans (hlt d hd) (by omega)
              · rw [List.mem_singleton] at hd
                omega

/-- Claim C2: the cumulative return reported by build_index is the
chronologically compounded product of one plus each reported daily return,
minus one, over a result whose dates are strictly ascending; the
cumulative return assembled by get_performance on the computing path
equals the same product over the assembled day map, and the compounding
the code performs (fold over the sorted key set) is invariant under the
assembly order of that map, so iteration and cache-fetch order cannot
change it. -/
theorem cumulative_is_compounded_product :
    (∀ (fuel : ℕ) (store : Store) (cache : Cache) (s e : ℤ)
        (res : BuildResult) (st2 : Store) (c2 : Cache),
        buildIndex fuel store cache s e = some (res, st2, c2) →
          res.cum = ((res.daily.map Prod.snd).map (fun r => 1 + r)).prod - 1 ∧
          (res.daily.map Prod.fst).Sorted (· < ·)) ∧
    (∀ (store : Store) (cache : Cache) (s e : ℤ) (D : List (ℤ × ℚ)) (C : ℚ),
        cacheGet cache (Key.perfRange s e) = none →
        (getPerformance store cache s e).1 = CVal.perfVal D C →
          C = (D.map (fun p => 1 + p.2)).prod - 1) ∧
    (∀ l l' : List (ℤ × ℚ), l.Perm l' → cumulativeOf l = cumulativeOf l') := by
  refine ⟨?_, ?_, cumulativeOf_perm⟩
  · intro fuel store cache s e res st2 c2 h
    unfold buildIndex at h
    cases hloop : buildLoop store e fuel ⟨s - 1, s, [], [], 1, cache⟩ with
    | none => rw [hloop] at h; exact absurd h (by simp)
    | some st =>
        rw [hloop] at h
        have hinv := buildLoop_inv store e fuel _ st hloop (by simp) (by simp)
          (by simp) (by simp)
        rcases hinv with ⟨hlen, hcum, hsort⟩
        injection h with h1
        injection h1 with hres hrest
        subst hres
        constructor
        · simp only [BuildResult.daily]
          rw [List.map_snd_zip _ _ (ge_of_eq hlen)]
          simp [BuildResult.cum, hcum]
        · simp only [BuildResult.daily]
          rw [List.map_fst_zip _ _ (le_of_eq hlen)]
          exact hsort
  · intro store cache s e D C hmiss hres
    unfold getPerformance at hres
    rw [hmiss] at hres
    simp only at hres
    injection hres with hD hC
    rw [← hD, ← hC, cumulativeOf_eq_prod]

/-- A performance store holding one computed day. -/
def perfStore2 : Store := ⟨[], [(2, 1/10)], [], []⟩

/-- Witness for claim C2 at concrete inputs: a one-day build over
satStore, a one-day get_performance over perfStore2, and order
invariance of the compounding fold on a two-element day set. -/
theorem cumulative_is_compounded_product_witness :
    ((⟨[(5, 1/10)], 1/10⟩ : BuildResult).cum =
        (((⟨[(5, 1/10)], 1/10⟩ : BuildResult).daily.map Prod.snd).map
          (fun r => 1 + r)).prod - 1 ∧
      ((⟨[(5, 1/10)], 1/10⟩ : BuildResult).daily.map Prod.fst).Sorted (· < ·)) ∧
    ((1/10 : ℚ) = ([((2 : ℤ), (1/10 : ℚ))].map (fun p => 1 + p.2)).prod - 1) ∧
    cumulativeOf [((1 : ℤ), (2 : ℚ)), (2, 3)] = cumulativeOf [((2 : ℤ), (3 : ℚ)), (1, 2)] := by
  refine ⟨cumulative_is_compounded_product.1 2 satStore [] 5 5 ⟨[(5, 1/10)], 1/10⟩
            ⟨satStore.daily, [(5, 1/10)], [], []⟩
            [(Key.cumulativeRange 5 5, CVal.num (1/10)), (Key.dailyReturn 5, CVal.num (1/10))] ?_,
          cumulative_is_compounded_product.2.1 perfStore2 [] 2 2 [(2, 1/10)] (1/10) rfl ?_,
          cumulative_is_compounded_product.2.2 _ _ (List.Perm.swap _ _ _)⟩
  · simp only [buildIndex, buildLoop, buildDay, cacheGet, cacheSet, cvalToFloat, pyWeekday,
      computeDailyReturn, curRowsOf, retsOf, fixedTop100, twoDayPrices, lagReturn, priceOn, satStore,
      upsertPerfMany, upsertPerf,
      List.insertionSort, List.orderedInsert, List.filter, List.filterMap, List.find?]
    norm_num
    decide
  · simp only [getPerformance, perfHits, perfMissing, perfAssembled, cacheGet, cacheSet, perfScanStep, perfFetch, cumulativeOf,
      dateRange, cvalToFloat, perfStore2, List.insertionSort, List.orderedInsert,
      List.filter, List.filterMap, List.find?, List.foldl, List.range, List.map]
    norm_num

/-- One row of the selected top-100 as produced by
DataAcquisition.fetch_stocks_for_date: symbol, security name, market
category, close price, market-cap proxy. -/
structure TopRow where
  symbol : String
  name : String
  category : String
  price : ℚ
  market_cap : ℚ
deriving DecidableEq, Repr

/-- INSERT OR REPLACE INTO daily_data keyed by (symbol, date). -/
def upsertDaily (daily : List DDRow) (row : DDRow) : List DDRow :=
  if daily.any (fun r => r.symbol = row.symbol ∧ r.date = row.date) then
    daily.map (fun r => if r.symbol = row.symbol ∧ r.date = row.date then row else r)
  else daily ++ [row]

/-- INSERT OR REPLACE INTO stocks keyed by symbol. -/
def upsertStock (stocks : List (String × String × String)) (s n c : String) :
    List (String × String × String) :=
  if stocks.any (fun t => t.1 = s) then
    stocks.map (fun t => if t.1 = s then (s, n, c) else t)
  else stocks ++ [(s, n, c)]

/-- INSERT OR REPLACE INTO index_composition keyed by (date, symbol); the
weight and rank columns are not modelled because no operation embedded
here reads them. -/
def upsertComp (comp : List (ℤ × String)) (d : ℤ) (s : String) : List (ℤ × String) :=
  if comp.any (fun p => p.1 = d ∧ p.2 = s) then comp else comp ++ [(d, s)]

/-- The per-symbol store writes of run_acquisition for the day's top-100
rows (stocks, index_composition and daily_data upserts; the stored volume
is market_cap / price when price > 0, else 0, as in the source). -/
def topFoldStore (d : ℤ) (top : List TopRow) (store : Store) : Store :=
  top.foldl
    (fun st t =>
      { st with
          stocks := upsertStock st.stocks t.symbol t.name t.category,
          comp := upsertComp st.comp d t.symbol,
          daily := upsertDaily st.daily
            ⟨t.symbol, d, t.price, t.market_cap,
             if (0 : ℚ) < t.price then t.market_cap / t.price else 0⟩ })
    store

/-- The supplementary single-symbol fetches of run_acquisition for
symbols dropped from the top-100: fetch_stock_data returning
(price, market_cap, volume) leads to a daily_data upsert, an unfetchable
symbol is skipped. -/
def droppedFoldDaily (fetchOne : String → Option (ℚ × ℚ × ℚ)) (d : ℤ)
    (l : List String) (daily : List DDRow) : List DDRow :=
  l.foldl
    (fun acc s =>
      match fetchOne s with
      | some (p, m, v) => upsertDaily acc ⟨s, d, p, m, v⟩
      | none => acc)
    daily

/-- One successful day of DataAcquisition.run_acquisition: cache the raw
top-100 under top100_stocks:d, upsert the per-symbol rows, then issue a
supplementary fetch for every symbol of the previous processed day's
selected set absent from today's top-100 (iteration order of the Python
set difference determinized as prev_symbols order); returns the new
store, cache and the current symbol set. -/
def processDay (store : Store) (cache : Cache) (prevSymbols : List String) (d : ℤ)
    (top : List TopRow) (fetchOne : String → Option (ℚ × ℚ × ℚ)) :
    Store × Cache × List String :=
  let cache1 := cacheSet cache (Key.top100 d)
    (CVal.compVal (top.map (fun t => ⟨t.symbol, t.name, t.category, t.price, t.market_cap⟩)))
  let store1 := topFoldStore d top store
  let currentSymbols := top.map (fun t => t.symbol)
  let dropped := prevSymbols.filter (fun s => !currentSymbols.contains s)
  let store2 := { store1 with daily := droppedFoldDaily fetchOne d dropped store1.daily }
  (store2, cache1, currentSymbols.dedup)

/-- No observation for (s, d) in the table. -/
def NoObs (daily : List DDRow) (s : String) (d : ℤ) : Prop :=
  ∀ r ∈ daily, ¬(r.symbol = s ∧ r.date = d)

lemma upsertDaily_mem_self (daily : List DDRow) (row : DDRow) :
    row ∈ upsertDaily daily row := by
  unfold upsertDaily
  by_cases h : daily.any (fun r => r.symbol = row.symbol ∧ r.date = row.date)
  · rw [if_pos h]
    rcases List.any_eq_true.mp h with ⟨r, hr, hk⟩
    refine List.mem_map.mpr ⟨r, hr, ?_⟩
    rw [if_pos (by simpa using hk)]
  · rw [if_neg h]
    exact List.mem_append.mpr (Or.inr (List.mem_singleton_self _))

lemma upsertDaily_mem_preserved (daily : List DDRow) (row r : DDRow)
    (h : r ∈ daily) (hk : ¬(r.symbol = row.symbol ∧ r.date = row.date)) :
    r ∈ upsertDaily daily row := by
  unfold upsertDaily
  by_cases hany : daily.any (fun x => x.symbol = row.symbol ∧ x.date = row.date)
  · rw [if_pos hany]
    refine List.mem_map.mpr ⟨r, h, ?_⟩
    rw [if_neg (by simpa using hk)]
  · rw [if_neg hany]
    exact List.mem_append.mpr (Or.inl h)

lemma droppedFold_pres (fetchOne : String → Option (ℚ × ℚ × ℚ)) (d : ℤ) :
    ∀ (l : List String) (daily : List DDRow) (row : DDRow),
      row ∈ daily → fetchOne row.symbol = some (row.price, row.market_cap, row.volume) →
      row.date = d → row ∈ droppedFoldDaily fetchOne d l daily := by
  intro l
  induction l with
  | nil => intro daily row h _ _; exact h
  | cons s rest ih =>
      intro daily row h hf hd
      unfold droppedFoldDaily
      rw [List.foldl_cons]
      cases hfs : fetchOne s with
      | none => exact ih daily row h hf hd
      | some t =>
          rcases t with ⟨p, m, v⟩
          by_cases hsym : s = row.symbol
          · have hrow : (⟨s, d, p, m, v⟩ : DDRow) = row := by
              rw [hsym] at hfs
              rw [hfs] at hf
              injection hf with hf
              rcases row with ⟨rs, rd, rp, rm, rv⟩
              simp only at hd hsym
              injection hf with h1 h2
              injection h2 with h2 h3
              simp_all
            show row ∈ droppedFoldDaily fetchOne d rest (upsertDaily daily ⟨s, d, p, m, v⟩)
            rw [hrow]
            exact ih _ row (upsertDaily_mem_self _ _) hf hd
          · exact ih _ row
              (upsertDaily_mem_preserved _ _ _ h (fun hc => hsym hc.1.symm)) hf hd

lemma droppedFold_mem (fetchOne : String → Option (ℚ × ℚ × ℚ)) (d : ℤ) :
    ∀ (l : List String) (daily : List DDRow) (s : String) (p m v : ℚ),
      s ∈ l → fetchOne s = some (p, m, v) →
      (⟨s, d, p, m, v⟩ : DDRow) ∈ droppedFoldDaily fetchOne d l daily := by
  intro l
  induction l with
  | nil => intro daily s p m v h; exact absurd h (List.not_mem_nil s)
  | cons x rest ih =>
      intro daily s p m v hmem hf
      unfold droppedFoldDaily
      rw [List.foldl_cons]
      by_cases hx : x = s
      · subst hx
        rw [hf]
        exact droppedFold_pres fetchOne d rest _ _ (upsertDaily_mem_self _ _) hf rfl
      · rcases List.mem_cons.mp hmem with h | h
        · exact absurd h.symm hx
        · cases hfx : fetchOne x with
          | none => exact ih daily s p m v h hf
          | some t => rcases t with ⟨p2, m2, v2⟩; exact ih _ s p m v h hf

lemma upsertDaily_noobs (daily : List DDRow) (row : DDRow) (s : String) (d : ℤ)
    (h : NoObs daily s d) (hk : ¬(row.symbol = s ∧ row.date = d)) :
    NoObs (upsertDaily daily row) s d := by
  intro r hr
  unfold upsertDaily at hr
  by_cases hany : daily.any (fun x => x.symbol = row.symbol ∧ x.date = row.date)
  · rw [if_pos hany] at hr
    rcases List.mem_map.mp hr with ⟨x, hx, hfx⟩
    by_cases hxk : x.symbol = row.symbol ∧ x.date = row.date
    · rw [if_pos hxk] at hfx
      exact hfx ▸ hk
    · rw [if_neg hxk] at hfx
      exact hfx ▸ h x hx
  · rw [if_neg hany] at hr
    rcases List.mem_append.mp hr with hr | hr
    · exact h r hr
    · rw [List.mem_singleton] at hr
      exact hr ▸ hk

lemma topFold_noobs (d : ℤ) (s : String) :
    ∀ (top : List TopRow) (store : Store), NoObs store.daily s d →
      (∀ t ∈ top, t.symbol ≠ s) → NoObs (topFoldStore d top store).daily s d := by
  intro top
  induction top with
  | nil => intro store h _; exact h
  | cons t rest ih =>
      intro store h hs
      unfold topFoldStore
      rw [List.foldl_cons]
      exact ih _ (upsertDaily_noobs _ _ _ _ h
          (fun hc => hs t (List.mem_cons_self t rest) hc.1))
        (fun x hx => hs x (List.mem_cons_of_mem t hx))

lemma droppedFold_noobs (fetchOne : String → Option (ℚ × ℚ × ℚ)) (d : ℤ) (s : String)
    (hnone : fetchOne s = none) :
    ∀ (l : List String) (daily : List DDRow), NoObs daily s d →
      NoObs (droppedFoldDaily fetchOne d l daily) s d := by
  intro l
  induction l with
  | nil => intro daily h; exact h
  | cons x rest ih =>
      intro daily h
      unfold droppedFoldDaily
      rw [List.foldl_cons]
      cases hfx : fetchOne x with
      | none => exact ih daily h
      | some t =>
          rcases t with ⟨p, m, v⟩
          refine ih _ (upsertDaily_noobs _ _ _ _ h (fun hc => ?_))
          have : x = s := hc.1
          rw [this, hnone] at hfx
          exact Option.noConfusion hfx

/-- Claim C9: in a processed acquisition day, a symbol of the previous
processed day's selected set that is absent from today's top-100 gets a
supplementary fetch: when fetch_stock_data returns (price, market_cap,
volume) the resulting daily_data contains the corresponding
DailyObservation for today; when the symbol is unfetchable it is silently
omitted (the day still completes, producing a store with no observation
for that symbol today, all other writes intact). -/
theorem survivorship_fetch (store : Store) (cache : Cache) (prevSymbols : List String)
    (d : ℤ) (top : List TopRow) (fetchOne : String → Option (ℚ × ℚ × ℚ)) (s : String) :
    (∀ p m v : ℚ, s ∈ prevSymbols → s ∉ top.map (fun t => t.symbol) →
        fetchOne s = some (p, m, v) →
        (⟨s, d, p, m, v⟩ : DDRow) ∈ (processDay store cache prevSymbols d top fetchOne).1.daily) ∧
    (fetchOne s = none → NoObs store.daily s d → s ∉ top.map (fun t => t.symbol) →
        NoObs (processDay store cache prevSymbols d top fetchOne).1.daily s d) := by
  constructor
  · intro p m v hmem hns hf
    show (⟨s, d, p, m, v⟩ : DDRow) ∈ droppedFoldDaily fetchOne d
      (prevSymbols.filter (fun x => !(top.map (fun t => t.symbol)).contains x))
      (topFoldStore d top store).daily
    refine droppedFold_mem fetchOne d _ _ s p m v ?_ hf
    refine List.mem_filter.mpr ⟨hmem, ?_⟩
    exact (not_contains_iff _ _).mpr hns
  · intro hf hno hns
    show NoObs (droppedFoldDaily fetchOne d
      (prevSymbols.filter (fun x => !(top.map (fun t => t.symbol)).contains x))
      (topFoldStore d top store).daily) s d
    refine droppedFold_noobs fetchOne d s hf _ _ (topFold_noobs d s top store hno ?_)
    intro t ht hts
    exact hns (List.mem_map.mpr ⟨t, ht, hts⟩)

/-- The single-symbol fetch oracle of the C9 witness: A is fetchable,
everything else is not. -/
def acqFetch : String → Option (ℚ × ℚ × ℚ) :=
  fun s => if s = "A" then some (10, 100, 10) else none

/-- Witness for claim C9: yesterday's cohort {A, B}, today's top-100 only
{B}; the dropped fetchable A gets a DailyObservation for today, and the
unfetchable C stays absent while the day completes. -/
theorem survivorship_fetch_witness :
    ((⟨"A", 3, 10, 100, 10⟩ : DDRow) ∈
      (processDay emptyStore [] ["A", "B"] 3 [⟨"B", "BN", "cat", 50, 600⟩] acqFetch).1.daily) ∧
    NoObs (processDay emptyStore [] ["A", "B"] 3 [⟨"B", "BN", "cat", 50, 600⟩] acqFetch).1.daily
      "C" 3 := by
  constructor
  · exact (survivorship_fetch emptyStore [] ["A", "B"] 3 [⟨"B", "BN", "cat", 50, 600⟩]
      acqFetch "A").1 10 100 10 (by decide) (by decide) rfl
  · exact (survivorship_fetch emptyStore [] ["A", "B"] 3 [⟨"B", "BN", "cat", 50, 600⟩]
      acqFetch "C").2 rfl (by intro r hr; exact absurd hr (List.not_mem_nil r)) (by decide)

/-- One raw row of the exchange candidate listing (nasdaqtraded.txt):
Symbol and Security Name may be missing (pandas notna checks), ETF,
Financial Status and Test Issue are flag columns, Market Category is
carried through. -/
structure ListingRow where
  symbol : Option String
  securityName : Option String
  etf : String
  finStatus : String
  testIssue : String
  marketCategory : String
deriving DecidableEq, Repr

/-- The regex check str.contains of a leading digit. -/
def startsWithDigit (s : String) : Bool :=
  match s.data with
  | [] => false
  | c :: _ => c.isDigit

/-- The validation filter of fetch_stocks_for_date: symbol present and
non-empty and not digit-initial, ETF = N, Financial Status = N,
Test Issue = N, Security Name present. -/
def validListingRow (r : ListingRow) : Bool :=
  match r.symbol, r.securityName with
  | some s, some _ =>
      !(s = "") && !startsWithDigit s &&
        (r.etf = "N" : Bool) && (r.finStatus = "N" : Bool) && (r.testIssue = "N" : Bool)
  | _, _ => false

/-- The per-symbol record held in the market_caps Python dict. -/
structure MCEntry where
  market_cap : ℚ
  name : String
  category : String
  price : ℚ
  volume : ℚ
deriving DecidableEq, Repr

/-- Python dict assignment: an existing key keeps its insertion position,
a new key is appended. -/
def pyDictSet (dict : List (String × MCEntry)) (k : String) (v : MCEntry) :
    List (String × MCEntry) :=
  if dict.any (fun kv => kv.1 = k) then
    dict.map (fun kv => if kv.1 = k then (k, v) else kv)
  else dict ++ [(k, v)]

/-- The market_caps accumulation loop of fetch_stocks_for_date: for each
surviving listing row, quote the symbol (none models an empty history or
a raised-and-swallowed per-symbol exception), keep it only when
price > 0 and volume > 0, with marketCapProxy = price * volume. -/
def buildMarketCaps (rows : List ListingRow) (quote : String → Option (ℚ × ℚ)) :
    List (String × MCEntry) :=
  (rows.filter validListingRow).foldl
    (fun dict r =>
      match r.symbol with
      | none => dict
      | some sym =>
          match quote sym with
          | none => dict
          | some (price, volume) =>
              if 0 < price ∧ 0 < volume then
                pyDictSet dict sym
                  ⟨price * volume, r.securityName.getD "", r.marketCategory, price, volume⟩
              else dict)
    []

/-- Descending-by-key order with ties allowed, the relation under which a
stable insertion sort models Python sorted(key=market_cap, reverse=True). -/
def descRel {α : Type} {β : Type} [LinearOrder β] (key : α → β) (a b : α) : Prop :=
  key b ≤ key a

instance descRelDecidable {α : Type} {β : Type} [LinearOrder β] (key : α → β) :
    DecidableRel (descRel key) :=
  fun a b => inferInstanceAs (Decidable (key b ≤ key a))

instance descRelTotal {α : Type} {β : Type} [LinearOrder β] (key : α → β) :
    IsTotal α (descRel key) :=
  ⟨fun a b => le_total (key b) (key a)⟩

instance descRelTrans {α : Type} {β : Type} [LinearOrder β] (key : α → β) :
    IsTrans α (descRel key) :=
  ⟨fun _ _ _ h1 h2 => le_trans h2 h1⟩

lemma orderedInsert_filter_key {α β : Type} [LinearOrder β] (key : α → β)
    (x : α) (q : β) :
    ∀ l : List α,
      (List.orderedInsert (descRel key) x l).filter (fun y => key y = q) =
        if key x = q then x :: l.filter (fun y => key y = q)
        else l.filter (fun y => key y = q) := by
  intro l
  induction l with
  | nil =>
      by_cases hq : key x = q <;> simp [List.orderedInsert, List.filter_cons, hq]
  | cons b bs ih =>
      rw [List.orderedInsert]
      by_cases h : descRel key x b
      · rw [if_pos h]
        by_cases hq : key x = q <;> simp [List.filter_cons, hq]
      · rw [if_neg h]
        by_cases hbq : key b = q
        · have hxq : ¬ key x = q := by
            intro hxq
            exact h (le_of_eq (hbq.trans hxq.symm))
          simp [List.filter_cons, hbq, hxq, ih]
        · by_cases hq : key x = q <;> simp [List.filter_cons, hbq, hq, ih]

lemma insertionSort_desc_stable {α β : Type} [LinearOrder β] (key : α → β) (q : β) :
    ∀ l : List α,
      (List.insertionSort (descRel key) l).filter (fun y => key y = q) =
        l.filter (fun y => key y = q) := by
  intro l
  induction l with
  | nil => rfl
  | cons x xs ih =>
      rw [List.insertionSort, orderedInsert_filter_key]
      by_cases hq : key x = q <;> simp [List.filter_cons, hq, ih]

/-- The key by which fetch_stocks_for_date ranks dict entries. -/
def mcKey (kv : String × MCEntry) : ℚ := kv.2.market_cap

/-- DataAcquisition.fetch_stocks_for_date after a successful listing
download: filter, quote, rank by market-cap proxy with a stable
descending sort, truncate to 100, project the output tuple. -/
def fetchTop100 (rows : List ListingRow) (quote : String → Option (ℚ × ℚ)) :
    List TopRow :=
  ((List.insertionSort (descRel mcKey) (buildMarketCaps rows quote)).take 100).map
    (fun kv => ⟨kv.1, kv.2.name, kv.2.category, kv.2.price, kv.2.market_cap⟩)

/-- Strict lexicographic comparison of char sequences by code point (the
Python string order). -/
def charListLtb : List Char → List Char → Bool
  | [], [] => false
  | [], _ :: _ => true
  | _ :: _, [] => false
  | a :: as, b :: bs =>
      if a.toNat < b.toNat then true
      else if b.toNat < a.toNat then false
      else charListLtb as bs

/-- Python style string less-or-equal by code point. -/
def strLeb (a b : String) : Bool := !(charListLtb b.data a.data)

/-- The ordering claimed by the specification: descending by market-cap
proxy with ties broken ascending by symbol. -/
def specRel (a b : String × MCEntry) : Prop :=
  b.2.market_cap < a.2.market_cap ∨ (a.2.market_cap = b.2.market_cap ∧ strLeb a.1 b.1 = true)

instance specRelDecidable : DecidableRel specRel :=
  fun _ _ => inferInstanceAs (Decidable (_ ∨ _))

/-- The claim-side selection (for claim C8): identical filtering and
proxy, but ranked with the ascending-symbol tie-break the spec states. -/
def specTop100 (rows : List ListingRow) (quote : String → Option (ℚ × ℚ)) :
    List TopRow :=
  ((List.insertionSort specRel (buildMarketCaps rows quote)).take 100).map
    (fun kv => ⟨kv.1, kv.2.name, kv.2.category, kv.2.price, kv.2.market_cap⟩)

/-- A candidate listing holding B before A, both valid. -/
def cexRows : List ListingRow :=
  [⟨some "B", some "Bco", "N", "N", "N", "Q"⟩,
   ⟨some "A", some "Aco", "N", "N", "N", "Q"⟩]

/-- A quote oracle giving every symbol price 1 and volume 1, so the two
proxies tie. -/
def cexQuote : String → Option (ℚ × ℚ) := fun _ => some (1, 1)

/-- Counterexample for claim C8: with a tied market-cap proxy, the code
keeps the candidate-listing order (B before A) because Python sorted with
reverse=True is stable, while the claimed ascending-symbol tie-break
would put A first; the selected universes differ. -/
theorem fetchTop100_tiebreak_counterexample :
    (fetchTop100 cexRows cexQuote).map (fun t => t.symbol) = ["B", "A"] ∧
    (specTop100 cexRows cexQuote).map (fun t => t.symbol) = ["A", "B"] ∧
    fetchTop100 cexRows cexQuote ≠ specTop100 cexRows cexQuote := by
  have h1 : (fetchTop100 cexRows cexQuote).map (fun t => t.symbol) = ["B", "A"] := by
    simp only [fetchTop100, buildMarketCaps, cexRows, cexQuote, validListingRow,
      startsWithDigit, pyDictSet, mcKey, descRel, List.filter, List.foldl,
      List.insertionSort, List.orderedInsert, List.take, List.map, List.any]
    norm_num
  have h2 : (specTop100 cexRows cexQuote).map (fun t => t.symbol) = ["A", "B"] := by
    simp only [specTop100, buildMarketCaps, cexRows, cexQuote, validListingRow,
      startsWithDigit, pyDictSet, specRel, strLeb, charListLtb, List.filter, List.foldl,
      List.insertionSort, List.orderedInsert, List.take, List.map, List.any]
    norm_num
    rw [if_neg (by decide)]
    decide
  refine ⟨h1, h2, fun h => ?_⟩
  rw [h] at h1
  exact absurd (h1.symm.trans h2) (by decide)

lemma pyDictSet_mem (dict : List (String × MCEntry)) (k : String) (v : MCEntry)
    (kv : String × MCEntry) (h : kv ∈ pyDictSet dict k v) : kv ∈ dict ∨ kv = (k, v) := by
  unfold pyDictSet at h
  by_cases hany : dict.any (fun x => x.1 = k)
  · rw [if_pos hany] at h
    rcases List.mem_map.mp h with ⟨x, hx, hfx⟩
    by_cases hxk : x.1 = k
    · rw [if_pos hxk] at hfx
      exact Or.inr hfx.symm
    · rw [if_neg hxk] at hfx
      exact Or.inl (hfx ▸ hx)
  · rw [if_neg hany] at h
    rcases List.mem_append.mp h with h | h
    · exact Or.inl h
    · exact Or.inr (List.mem_singleton.mp h)

lemma mcFold_mem (quote : String → Option (ℚ × ℚ)) :
    ∀ (l : List ListingRow) (dict : List (String × MCEntry)) (kv : String × MCEntry),
      kv ∈ l.foldl
        (fun dict r =>
          match r.symbol with
          | none => dict
          | some sym =>
              match quote sym with
              | none => dict
              | some (price, volume) =>
                  if 0 < price ∧ 0 < volume then
                    pyDictSet dict sym
                      ⟨price * volume, r.securityName.getD "", r.marketCategory, price, volume⟩
                  else dict)
        dict →
      kv ∈ dict ∨
        ∃ r ∈ l, r.symbol = some kv.1 ∧
          quote kv.1 = some (kv.2.price, kv.2.volume) ∧ 0 < kv.2.price ∧ 0 < kv.2.volume ∧
          kv.2.market_cap = kv.2.price * kv.2.volume := by
  intro l
  induction l with
  | nil => intro dict kv h; exact Or.inl h
  | cons r rest ih =>
      intro dict kv h
      rw [List.foldl_cons] at h
      rcases ih _ kv h with hstep | ⟨r2, hr2, hrest⟩
      · cases hsym : r.symbol with
        | none => simp only [hsym] at hstep; exact Or.inl hstep
        | some sym =>
            simp only [hsym] at hstep
            cases hq : quote sym with
            | none => simp only [hq] at hstep; exact Or.inl hstep
            | some pv =>
                rcases pv with ⟨price, volume⟩
                simp only [hq] at hstep
                by_cases hpos : 0 < price ∧ 0 < volume
                · rw [if_pos hpos] at hstep
                  rcases pyDictSet_mem _ _ _ _ hstep with hmem | rfl
                  · exact Or.inl hmem
                  · exact Or.inr ⟨r, List.mem_cons_self r rest,
                      hsym, by simpa using hq, hpos.1, hpos.2, rfl⟩
                · rw [if_neg hpos] at hstep
                  exact Or.inl hstep
      · exact Or.inr ⟨r2, List.mem_cons_of_mem r hr2, hrest⟩

lemma buildMarketCaps_mem (rows : List ListingRow) (quote : String → Option (ℚ × ℚ))
    (kv : String × MCEntry) (h : kv ∈ buildMarketCaps rows quote) :
    ∃ r ∈ rows, validListingRow r = true ∧ r.symbol = some kv.1 ∧
      quote kv.1 = some (kv.2.price, kv.2.volume) ∧ 0 < kv.2.price ∧ 0 < kv.2.volume ∧
      kv.2.market_cap = kv.2.price * kv.2.volume := by
  rcases mcFold_mem quote (rows.filter validListingRow) [] kv h with hnil | ⟨r, hr, hrest⟩
  · exact absurd hnil (List.not_mem_nil kv)
  · rcases List.mem_filter.mp hr with ⟨hrows, hvalid⟩
    exact ⟨r, hrows, hvalid, hrest⟩

/-- Claim C8 amended: every selected row passes the validity filter
(present non-digit-initial symbol, no ETF/test-issue/financial-distress
flag), has a quoted price > 0 and volume > 0, and market-cap proxy =
price * volume; the selection is the first 100 (at most 100 rows) of the
candidates sorted descending by the proxy - but ties are kept in
candidate-listing order (Python sorted is stable), not re-ordered
ascending by symbol as the claim states. -/
theorem fetchTop100_spec (rows : List ListingRow) (quote : String → Option (ℚ × ℚ)) :
    (fetchTop100 rows quote).length ≤ 100 ∧
    (∀ t ∈ fetchTop100 rows quote, ∃ r ∈ rows,
        validListingRow r = true ∧ r.symbol = some t.symbol ∧
        ∃ p v : ℚ, quote t.symbol = some (p, v) ∧ 0 < p ∧ 0 < v ∧
          t.price = p ∧ t.market_cap = p * v) ∧
    ((fetchTop100 rows quote).map (fun t => t.market_cap)).Sorted (fun a b => b ≤ a) ∧
    (∀ q : ℚ,
      (List.insertionSort (descRel mcKey) (buildMarketCaps rows quote)).filter
          (fun kv => mcKey kv = q) =
        (buildMarketCaps rows quote).filter (fun kv => mcKey kv = q)) := by
  refine ⟨?_, ?_, ?_, fun q => insertionSort_desc_stable mcKey q _⟩
  · calc (fetchTop100 rows quote).length
        = ((List.insertionSort (descRel mcKey) (buildMarketCaps rows quote)).take 100).length :=
          List.length_map _ _
      _ ≤ 100 := List.length_take_le _ _
  · intro t ht
    rcases List.mem_map.mp ht with ⟨kv, hkv, hproj⟩
    have hsorted : kv ∈ List.insertionSort (descRel mcKey) (buildMarketCaps rows quote) :=
      List.mem_of_mem_take hkv
    have hmc : kv ∈ buildMarketCaps rows quote :=
      (List.perm_insertionSort _ _).mem_iff.mp hsorted
    rcases buildMarketCaps_mem rows quote kv hmc with ⟨r, hr, hvalid, hsym, hq, hp, hv, hcap⟩
    refine ⟨r, hr, hvalid, ?_, kv.2.price, kv.2.volume, ?_, hp, hv, ?_, ?_⟩
    · rw [← hproj]; exact hsym
    · rw [← hproj]; exact hq
    · rw [← hproj]
    · rw [← hproj]; exact hcap
  · have hs := List.sorted_insertionSort (descRel mcKey) (buildMarketCaps rows quote)
    have htake : ((List.insertionSort (descRel mcKey) (buildMarketCaps rows quote)).take
        100).Pairwise (descRel mcKey) :=
      hs.sublist (List.take_sublist _ _)
    unfold fetchTop100
    rw [List.map_map]
    exact List.Pairwise.map _ (fun a b h => h) htake

lemma find?_filter_of_imp {α : Type} (l : List α) (p q : α → Bool)
    (h : ∀ x, p x = true → q x = true) : (l.filter q).find? p = l.find? p := by
  induction l with
  | nil => rfl
  | cons x xs ih =>
      rw [List.filter_cons]
      by_cases hq : q x = true
      · rw [if_pos hq]
        by_cases hp : p x = true
        · rw [List.find?_cons_of_pos _ hp, List.find?_cons_of_pos _ hp]
        · rw [List.find?_cons_of_neg _ hp, List.find?_cons_of_neg _ hp, ih]
      · rw [if_neg hq]
        have hp : ¬ p x = true := fun hpx => hq (h x hpx)
        rw [List.find?_cons_of_neg _ hp, ih]

lemma priceOn_tdp (daily : List DDRow) (cohort : List String) (prev cur : ℤ)
    (s : String) (hs : cohort.contains s = true) (d : ℤ) (hd : d = prev ∨ d = cur) :
    priceOn (twoDayPrices daily cohort prev cur) s d = priceOn daily s d := by
  unfold priceOn twoDayPrices
  rw [find?_filter_of_imp]
  intro r hr
  simp only [decide_eq_true_eq] at hr ⊢
  rcases hr with ⟨h1, h2⟩
  subst h1
  exact ⟨by simpa using hs, by rw [h2]; exact hd⟩

lemma priceOn_of_mem (daily : List DDRow) (hnodup : DailyNodup daily)
    (r : DDRow) (hr : r ∈ daily) : priceOn daily r.symbol r.date = some r.price := by
  unfold priceOn
  have hsome : (daily.find? (fun x => x.symbol = r.symbol ∧ x.date = r.date)).isSome := by
    rw [List.find?_isSome]
    exact ⟨r, hr, by simp⟩
  rcases Option.isSome_iff_exists.mp hsome with ⟨x, hx⟩
  have hmem := List.mem_of_find?_eq_some hx
  have hpx := List.find?_some hx
  simp only [decide_eq_true_eq] at hpx
  have hxr : x = r := by
    refine List.inj_on_of_nodup_map hnodup hmem hr ?_
    simp only [hpx.1, hpx.2]
  rw [hx, hxr]
  rfl

lemma priceOn_pos (daily : List DDRow) (hpos : DailyPos daily) (s : String) (d : ℤ)
    (p : ℚ) (h : priceOn daily s d = some p) : 0 < p := by
  unfold priceOn at h
  cases hf : daily.find? (fun x => x.symbol = s ∧ x.date = d) with
  | none => rw [hf] at h; exact absurd h (by simp)
  | some x =>
      rw [hf] at h
      have hmem := List.mem_of_find?_eq_some hf
      have : x.price = p := by simpa using h
      exact this ▸ hpos x hmem

lemma filterMap_map_option {α : Type} (l : List α) (po : α → Option ℚ) (f : α → ℚ → ℚ) :
    l.filterMap (fun r => (po r).map (f r)) =
      (l.filter (fun r => (po r).isSome)).map (fun r => f r ((po r).getD 0)) := by
  induction l with
  | nil => rfl
  | cons x xs ih =>
      rw [List.filterMap_cons, List.filter_cons]
      cases hpo : po x with
      | none => simpa [hpo] using ih
      | some p0 => simpa [hpo] using ih

lemma symbols_nodup_of_const_date (l : List DDRow)
    (hkey : (l.map fun r => (r.symbol, r.date)).Nodup) (d : ℤ)
    (hd : ∀ r ∈ l, r.date = d) : (l.map (fun r => r.symbol)).Nodup := by
  induction l with
  | nil => exact List.nodup_nil
  | cons x xs ih =>
      rw [List.map_cons, List.nodup_cons] at hkey ⊢
      refine ⟨?_, ih hkey.2 (fun r hr => hd r (List.mem_cons_of_mem x hr))⟩
      intro hmem
      rcases List.mem_map.mp hmem with ⟨y, hy, hxy⟩
      refine hkey.1 (List.mem_map.mpr ⟨y, hy, ?_⟩)
      rw [hxy, hd y (List.mem_cons_of_mem x hy), hd x (List.mem_cons_self x xs)]

lemma fixedTop100_nodup (daily : List DDRow) (prev : ℤ) (hnodup : DailyNodup daily) :
    (fixedTop100 daily prev).Nodup := by
  unfold fixedTop100
  have hPkey : ((daily.filter (fun r => r.date = prev)).map fun r => (r.symbol, r.date)).Nodup :=
    hnodup.sublist (List.Sublist.map _ (List.filter_sublist _))
  have hPsym : ((daily.filter (fun r => r.date = prev)).map (fun r => r.symbol)).Nodup :=
    symbols_nodup_of_const_date _ hPkey prev
      (fun r hr => by simpa using (List.mem_filter.mp hr).2)
  have hperm := (List.perm_insertionSort
    (fun a b : DDRow => b.market_cap ≤ a.market_cap)
    (daily.filter (fun r => r.date = prev))).map (fun r => r.symbol)
  have hsortSym := (hperm.nodup_iff).mpr hPsym
  rw [List.map_take]
  exact hsortSym.sublist (List.take_sublist _ _)

lemma contains_iff {α : Type} [BEq α] [LawfulBEq α] (l : List α) (a : α) :
    l.contains a = true ↔ a ∈ l :=
  List.elem_iff

lemma curRowsOf_char (daily : List DDRow) (prev cur : ℤ) (r : DDRow) :
    r ∈ curRowsOf daily prev cur ↔
      r ∈ daily ∧ r.symbol ∈ fixedTop100 daily prev ∧ r.date = cur := by
  unfold curRowsOf twoDayPrices
  rw [List.mem_filter, List.mem_filter]
  simp only [decide_eq_true_eq]
  constructor
  · rintro ⟨⟨hd, hc, _⟩, hcur⟩
    exact ⟨hd, (contains_iff _ _).mp hc, hcur⟩
  · rintro ⟨hd, hc, hcur⟩
    exact ⟨⟨hd, (contains_iff _ _).mpr hc, Or.inr hcur⟩, hcur⟩

/-- Claim C1: on a cache miss the daily index return computed by the SQL
query equals the unweighted arithmetic mean of price(t)/price(t-1) - 1
over exactly the prior calendar day's top-100-by-market-cap cohort symbols
(re-derived from the store) that have observations on both endpoint dates;
symbols missing either endpoint are excluded from the mean. Hypotheses:
previous_date is the prior calendar day (as build_index always passes),
daily_data respects its (symbol, date) primary key, stored prices are
positive, and at least one cohort symbol is comparable (otherwise the
query yields no value and the day is skipped). -/
theorem dailyReturn_is_equal_weighted_mean (daily : List DDRow) (prev cur : ℤ)
    (_hprev : prev = cur - 1) (hnodup : DailyNodup daily) (hpos : DailyPos daily)
    (hcomp : comparableSymbols daily prev cur ≠ []) :
    computeDailyReturn daily prev cur = some (some (specDailyReturn daily prev cur)) := by
  set ok := (curRowsOf daily prev cur).filter
    (fun r => (priceOn daily r.symbol prev).isSome) with hok
  have hok_char : ∀ r, r ∈ ok ↔
      r ∈ daily ∧ r.symbol ∈ fixedTop100 daily prev ∧ r.date = cur ∧
        (priceOn daily r.symbol prev).isSome = true := by
    intro r
    rw [hok, List.mem_filter, curRowsOf_char]
    constructor
    · rintro ⟨⟨h1, h2, h3⟩, h4⟩
      exact ⟨h1, h2, h3, h4⟩
    · rintro ⟨h1, h2, h3, h4⟩
      exact ⟨⟨h1, h2, h3⟩, h4⟩
  have hlag : ∀ r ∈ curRowsOf daily prev cur,
      lagReturn (twoDayPrices daily (fixedTop100 daily prev) prev cur) r prev =
        (priceOn daily r.symbol prev).map (fun p0 => r.price / p0 - 1) := by
    intro r hr
    rcases (curRowsOf_char daily prev cur r).mp hr with ⟨_, hc, _⟩
    unfold lagReturn
    rw [priceOn_tdp daily _ prev cur r.symbol ((contains_iff _ _).mpr hc) prev (Or.inl rfl)]
    cases hpo : priceOn daily r.symbol prev with
    | none => rfl
    | some p0 =>
        have hp0 := priceOn_pos daily hpos _ _ _ hpo
        simp [ne_of_gt hp0]
  have hrets : retsOf daily prev cur =
      ok.map (fun r => simpleReturn daily r.symbol prev cur) := by
    unfold retsOf
    rw [List.filterMap_congr hlag]
    have hfm := filterMap_map_option (curRowsOf daily prev cur)
      (fun r => priceOn daily r.symbol prev) (fun r p0 => r.price / p0 - 1)
    simp only [] at hfm
    rw [hfm, ← hok]
    refine List.map_congr_left ?_
    intro r hr
    rcases (hok_char r).mp hr with ⟨hd, _, hdate, _⟩
    unfold simpleReturn
    have hpc : priceOn daily r.symbol cur = some r.price := by
      have := priceOn_of_mem daily hnodup r hd
      rwa [hdate] at this
    rw [hpc]
    rfl
  have hperm : (ok.map (fun r => r.symbol)).Perm (comparableSymbols daily prev cur) := by
    refine (List.perm_ext_iff_of_nodup ?_ ?_).mpr ?_
    · refine symbols_nodup_of_const_date ok ?_ cur ?_
      · refine hnodup.sublist (List.Sublist.map _ ?_)
        rw [hok]
        unfold curRowsOf twoDayPrices
        exact (List.filter_sublist _).trans
          ((List.filter_sublist _).trans (List.filter_sublist _))
      · intro r hr
        exact ((hok_char r).mp hr).2.2.1
    · exact (fixedTop100_nodup daily prev hnodup).filter _
    · intro s
      rw [List.mem_map]
      unfold comparableSymbols
      rw [List.mem_filter]
      constructor
      · rintro ⟨r, hr, rfl⟩
        rcases (hok_char r).mp hr with ⟨hd, hc, hdate, hps⟩
        have hpc : (priceOn daily r.symbol cur).isSome = true := by
          have h2 := priceOn_of_mem daily hnodup r hd
          rw [hdate] at h2
          rw [h2]
          rfl
        refine ⟨hc, ?_⟩
        rw [Bool.and_eq_true]
        exact ⟨hps, hpc⟩
      · rintro ⟨hc, hb⟩
        rw [Bool.and_eq_true] at hb
        rcases hb with ⟨hprevS, hcurS⟩
        rcases Option.isSome_iff_exists.mp (by exact hcurS) with ⟨pc, hpc⟩
        unfold priceOn at hpc
        cases hf : daily.find? (fun x => x.symbol = s ∧ x.date = cur) with
        | none => rw [hf] at hpc; exact absurd hpc (by simp)
        | some x =>
            have hxmem := List.mem_of_find?_eq_some hf
            have hpx := List.find?_some hf
            simp only [decide_eq_true_eq] at hpx
            refine ⟨x, (hok_char x).mpr ⟨hxmem, ?_, hpx.2, ?_⟩, hpx.1⟩
            · rw [hpx.1]; exact hc
            · rw [hpx.1]; exact hprevS
  have hlen : ok.length = (comparableSymbols daily prev cur).length := by
    have h2 := hperm.length_eq
    rwa [List.length_map] at h2
  have hsum : (ok.map (fun r => simpleReturn daily r.symbol prev cur)).sum =
      ((comparableSymbols daily prev cur).map
        (fun s => simpleReturn daily s prev cur)).sum := by
    have h2 := (hperm.map (fun s => simpleReturn daily s prev cur)).sum_eq
    rwa [List.map_map] at h2
  have hok_ne : ok ≠ [] := by
    intro hnil
    rcases List.exists_mem_of_ne_nil _ hcomp with ⟨s, hs⟩
    have := hperm.mem_iff.mpr hs
    rw [hnil] at this
    simp at this
  have hrets_ne : ¬ (retsOf daily prev cur).isEmpty = true := by
    rw [hrets, List.isEmpty_iff]
    intro h
    exact hok_ne (List.map_eq_nil_iff.mp h)
  have hcr_ne : ¬ (curRowsOf daily prev cur).isEmpty = true := by
    rw [List.isEmpty_iff]
    intro h
    apply hok_ne
    rw [hok, h]
    rfl
  unfold computeDailyReturn
  rw [if_neg hcr_ne, if_neg hrets_ne, hrets]
  unfold specDailyReturn
  congr 2
  rw [hsum, List.length_map, hlen]

/-- The end-to-end store of the spec's worked example: X at 100 then 110,
Y at 50 then 55, both in the prior-day cohort. -/
def c1daily : List DDRow :=
  [⟨"X", 1, 100, 1000, 10⟩, ⟨"X", 2, 110, 1100, 10⟩,
   ⟨"Y", 1, 50, 600, 12⟩, ⟨"Y", 2, 55, 660, 12⟩]

/-- Witness for claim C1 at the spec's end-to-end example. -/
theorem dailyReturn_is_equal_weighted_mean_witness :
    ((1 : ℤ) = 2 - 1) ∧ DailyNodup c1daily ∧ DailyPos c1daily ∧
    comparableSymbols c1daily 1 2 ≠ [] ∧
    computeDailyReturn c1daily 1 2 = some (some (specDailyReturn c1daily 1 2)) :=
  ⟨by decide, by unfold DailyNodup; decide, by unfold DailyPos; decide, by decide,
   dailyReturn_is_equal_weighted_mean c1daily 1 2 (by decide)
     (by unfold DailyNodup; decide) (by unfold DailyPos; decide) (by decide)⟩

/-- Sanity evaluation of the spec's end-to-end example: both per-symbol
returns are 0.10 and the equal-weighted index return is 0.10. -/
example : computeDailyReturn c1daily 1 2 = some (some (1/10)) := by
  simp only [computeDailyReturn, curRowsOf, retsOf, fixedTop100, twoDayPrices, lagReturn,
    priceOn, c1daily, List.insertionSort, List.orderedInsert, List.filter, List.filterMap,
    List.find?]
  norm_num [show (decide ("X" = "Y")) = false from rfl,
    show (decide ("Y" = "X")) = false from rfl, show (decide ("X" = "X")) = true from rfl,
    show (decide ("Y" = "Y")) = true from rfl]

/-- A store with price data implying a 10 percent return on day 2 and an
initially empty index_performance table. -/
def c7store : Store :=
  ⟨[⟨"A", 1, 100, 1000, 10⟩, ⟨"A", 2, 110, 1100, 10⟩], [], [], []⟩

/-- The store after build_index(2,2) has upserted the computed day. -/
def c7store1 : Store := ⟨c7store.daily, [(2, 1/10)], [], []⟩

/-- The cache produced by get_performance(2,2) on the empty table
followed by build_index(2,2). -/
def c7cache : Cache :=
  [(Key.cumulativeRange 2 2, CVal.num (1/10)), (Key.dailyReturn 2, CVal.num (1/10)),
   (Key.perfRange 2 2, CVal.perfVal [] 0)]

/-- Counterexample for claim C7: over one persistent store, running
get_performance(2,2) (caches the empty range result), then
build_index(2,2) (writes index_performance), then get_performance(2,2)
again returns the stale empty result from the range cache, while the same
call with the cache emptied returns the stored day - cache state changes
the returned values, not only cost. -/
theorem cache_transparency_counterexample :
    (getPerformance c7store [] 2 2).2 = [(Key.perfRange 2 2, CVal.perfVal [] 0)] ∧
    buildIndex 2 c7store [(Key.perfRange 2 2, CVal.perfVal [] 0)] 2 2 =
      some (⟨[(2, 1/10)], 1/10⟩, c7store1, c7cache) ∧
    (getPerformance c7store1 c7cache 2 2).1 = CVal.perfVal [] 0 ∧
    (getPerformance c7store1 [] 2 2).1 = CVal.perfVal [(2, 1/10)] (1/10) ∧
    CVal.perfVal [] 0 ≠ CVal.perfVal [(2, 1/10)] (1/10) := by
  refine ⟨?_, ?_, ?_, ?_, ?_⟩
  · simp only [getPerformance, perfHits, perfMissing, perfAssembled, cacheGet, cacheSet, perfScanStep, perfFetch, cumulativeOf,
      dateRange, cvalToFloat, c7store, List.insertionSort, List.orderedInsert,
      List.filter, List.filterMap, List.find?, List.foldl, List.range, List.map]
    norm_num
  · simp only [buildIndex, buildLoop, buildDay, cacheGet, cacheSet, cvalToFloat, pyWeekday,
      computeDailyReturn, curRowsOf, retsOf, fixedTop100, twoDayPrices, lagReturn, priceOn,
      c7store, c7store1, c7cache, upsertPerfMany, upsertPerf,
      List.insertionSort, List.orderedInsert, List.filter, List.filterMap, List.find?]
    norm_num [show (decide (Key.perfRange 2 2 = Key.dailyReturn 2)) = false from rfl,
      show (decide (Key.dailyReturn 2 = Key.perfRange 2 2)) = false from rfl,
      show (decide (Key.dailyReturn 2 = Key.cumulativeRange 2 2)) = false from rfl,
      show (decide (Key.perfRange 2 2 = Key.cumulativeRange 2 2)) = false from rfl]
  · simp only [getPerformance, cacheGet, c7cache, List.find?]
    norm_num [show (decide (Key.cumulativeRange 2 2 = Key.perfRange 2 2)) = false from rfl,
      show (decide (Key.dailyReturn 2 = Key.perfRange 2 2)) = false from rfl,
      show (decide (Key.perfRange 2 2 = Key.perfRange 2 2)) = true from rfl]
  · simp only [getPerformance, perfHits, perfMissing, perfAssembled, cacheGet, cacheSet, perfScanStep, perfFetch, cumulativeOf,
      dateRange, cvalToFloat, c7store1, c7store, List.insertionSort, List.orderedInsert,
      List.filter, List.filterMap, List.find?, List.foldl, List.range, List.map]
    norm_num
  · intro h
    injection h with h1
    exact absurd h1 (by decide)

/-- The daily_return stored for a date in index_performance. -/
def perfLookup (store : Store) (d : ℤ) : Option ℚ :=
  (store.perf.find? (fun p => p.1 = d)).map (·.2)

/-- Primary-key invariant of index_performance: dates are distinct. -/
def PerfNodup (store : Store) : Prop :=
  (store.perf.map Prod.fst).Nodup

/-- A cache entry agrees with what its reader would recompute from the
store on a miss. The cumulative_return key is never read by any
operation, so it is unconstrained. -/
def entryConsistent (store : Store) : Key → CVal → Prop
  | Key.dailyReturn d, v =>
      ∃ q, computeDailyReturn store.daily (d - 1) d = some (some q) ∧ v = CVal.num q
  | Key.cumulativeRange _ _, _ => True
  | Key.perfRange s e, v =>
      ∃ D, D.Perm (perfFetch store (dateRange s e)) ∧ v = CVal.perfVal D (cumulativeOf D)
  | Key.perfDaily d, v => ∃ q, perfLookup store d = some q ∧ v = CVal.num q
  | Key.compChanges d, v =>
      v = CVal.changesVal (changesOf store d).1 (changesOf store d).2
  | Key.top100 d, v => v = CVal.compVal (compSnapshot store d)

/-- Every entry of the cache is consistent with the store. -/
def ConsistentCache (store : Store) (c : Cache) : Prop :=
  ∀ k v, cacheGet c k = some v → entryConsistent store k v

/-- Equality of returned values up to the insertion order of the
daily_returns dict (Python dicts compare equal regardless of key order). -/
def perfEquiv : CVal → CVal → Prop
  | CVal.perfVal d1 c1, CVal.perfVal d2 c2 => d1.Perm d2 ∧ c1 = c2
  | v, w => v = w

lemma cacheGet_set (c : Cache) (k : Key) (v : CVal) (k2 : Key) :
    cacheGet (cacheSet c k v) k2 = if k2 = k then some v else cacheGet c k2 := by
  unfold cacheGet cacheSet
  by_cases h : k2 = k
  · rw [if_pos h, h, List.find?_cons_of_pos _ (by simp)]
    rfl
  · rw [if_neg h, List.find?_cons_of_neg _
      (by simp only [decide_eq_true_eq]; exact fun hh => h hh.symm)]
    congr 1
    exact find?_filter_of_imp c _ _
      (fun kv hk => by
        simp only [decide_eq_true_eq] at hk ⊢
        rw [hk]
        exact h)

lemma consistent_nil (store : Store) : ConsistentCache store [] := by
  intro k v h
  exact absurd h (by simp [cacheGet])

lemma consistent_set (store : Store) (c : Cache) (hc : ConsistentCache store c)
    (k : Key) (v : CVal) (hv : entryConsistent store k v) :
    ConsistentCache store (cacheSet c k v) := by
  intro k2 v2 h2
  rw [cacheGet_set] at h2
  by_cases hk : k2 = k
  · rw [if_pos hk] at h2
    injection h2 with h2
    rw [hk, ← h2]
    exact hv
  · rw [if_neg hk] at h2
    exact hc k2 v2 h2

lemma compFor_transparent (store : Store) (c : Cache) (hc : ConsistentCache store c)
    (d : ℤ) :
    (getCompositionForDate store c d).1 = CVal.compVal (compSnapshot store d) ∧
    ConsistentCache store (getCompositionForDate store c d).2 := by
  unfold getCompositionForDate
  cases hget : cacheGet c (Key.top100 d) with
  | none =>
      refine ⟨rfl, ?_⟩
      show ConsistentCache store
        (if (compSnapshot store d).isEmpty = true then c
         else cacheSet c (Key.top100 d) (CVal.compVal (compSnapshot store d)))
      by_cases hrows : (compSnapshot store d).isEmpty = true
      · rw [if_pos hrows]
        exact hc
      · rw [if_neg hrows]
        exact consistent_set store c hc _ _ rfl
  | some v =>
      have hcv := hc _ _ hget
      simp only [entryConsistent] at hcv
      subst hcv
      by_cases htr : pyTruthy (CVal.compVal (compSnapshot store d)) = true
      · constructor
        · show (if pyTruthy (CVal.compVal (compSnapshot store d)) = true
                then (CVal.compVal (compSnapshot store d), c)
                else (CVal.compVal (compSnapshot store d),
                  if (compSnapshot store d).isEmpty = true then c
                  else cacheSet c (Key.top100 d)
                    (CVal.compVal (compSnapshot store d)))).1 =
            CVal.compVal (compSnapshot store d)
          rw [if_pos htr]
        · show ConsistentCache store
            (if pyTruthy (CVal.compVal (compSnapshot store d)) = true
             then (CVal.compVal (compSnapshot store d), c)
             else (CVal.compVal (compSnapshot store d),
               if (compSnapshot store d).isEmpty = true then c
               else cacheSet c (Key.top100 d)
                 (CVal.compVal (compSnapshot store d)))).2
          rw [if_pos htr]
          exact hc
      · constructor
        · show (if pyTruthy (CVal.compVal (compSnapshot store d)) = true
                then (CVal.compVal (compSnapshot store d), c)
                else (CVal.compVal (compSnapshot store d),
                  if (compSnapshot store d).isEmpty = true then c
                  else cacheSet c (Key.top100 d)
                    (CVal.compVal (compSnapshot store d)))).1 =
            CVal.compVal (compSnapshot store d)
          rw [if_neg htr]
        · show ConsistentCache store
            (if pyTruthy (CVal.compVal (compSnapshot store d)) = true
             then (CVal.compVal (compSnapshot store d), c)
             else (CVal.compVal (compSnapshot store d),
               if (compSnapshot store d).isEmpty = true then c
               else cacheSet c (Key.top100 d)
                 (CVal.compVal (compSnapshot store d)))).2
          rw [if_neg htr]
          have hrows : (compSnapshot store d).isEmpty = true := by
            cases h2 : (compSnapshot store d).isEmpty with
            | false =>
                exfalso
                apply htr
                show (!(compSnapshot store d).isEmpty) = true
                rw [h2]
                rfl
            | true => rfl
          show ConsistentCache store
            (if (compSnapshot store d).isEmpty = true then c
             else cacheSet c (Key.top100 d) (CVal.compVal (compSnapshot store d)))
          rw [if_pos hrows]
          exact hc

/-- The canonical date-ordered non-trivial diff list for a day set. -/
def changesList (store : Store) (days : List ℤ) :
    List (ℤ × List String × List String) :=
  days.filterMap (fun d =>
    if !(addedOf store d).isEmpty || !(removedOf store d).isEmpty
    then some (d, changesOf store d) else none)

lemma changes_fold (store : Store) :
    ∀ (days : List ℤ) (res : List (ℤ × List String × List String)) (c : Cache),
      ConsistentCache store c →
      ∃ c2, days.foldl (changesStep store) (Except.ok (res, c)) =
          Except.ok (res ++ changesList store days, c2) ∧ ConsistentCache store c2 := by
  intro days
  induction days with
  | nil =>
      intro res c hc
      refine ⟨c, ?_, hc⟩
      simp [changesList]
  | cons d rest ih =>
      intro res c hc
      rw [List.foldl_cons]
      cases hget : cacheGet c (Key.compChanges d) with
      | none =>
          have hcons2 : ConsistentCache store (cacheSet c (Key.compChanges d)
              (CVal.changesVal (changesOf store d).1 (changesOf store d).2)) :=
            consistent_set store c hc _ _ rfl
          rcases ih (if !(addedOf store d).isEmpty || !(removedOf store d).isEmpty
              then res ++ [(d, changesOf store d)] else res) _ hcons2 with ⟨c2, hfold, hc2⟩
          refine ⟨c2, ?_, hc2⟩
          simp only [changesStep, hget]
          rw [hfold]
          congr 1
          unfold changesList
          rw [List.filterMap_cons]
          by_cases hcond :
              (!(addedOf store d).isEmpty || !(removedOf store d).isEmpty) = true
          · rw [if_pos hcond, if_pos hcond]
            rw [List.append_assoc]
            rfl
          · rw [if_neg hcond, if_neg hcond]
      | some v =>
          have hcv := hc _ _ hget
          simp only [entryConsistent] at hcv
          subst hcv
          rcases ih (if !(addedOf store d).isEmpty || !(removedOf store d).isEmpty
              then res ++ [(d, changesOf store d)] else res) c hc with ⟨c2, hfold, hc2⟩
          refine ⟨c2, ?_, hc2⟩
          simp only [changesStep, hget]
          have hcond1 : (!((changesOf store d).1).isEmpty || !((changesOf store d).2).isEmpty)
              = (!(addedOf store d).isEmpty || !(removedOf store d).isEmpty) := by
            unfold changesOf
            rw [sortStr_isEmpty, sortStr_isEmpty]
          rw [hcond1]
          rw [hfold]
          congr 1
          unfold changesList
          rw [List.filterMap_cons]
          by_cases hcond :
              (!(addedOf store d).isEmpty || !(removedOf store d).isEmpty) = true
          · rw [if_pos hcond, if_pos hcond]
            rw [List.append_assoc]
            rfl
          · rw [if_neg hcond, if_neg hcond]

lemma changes_transparent (store : Store) (c : Cache) (hc : ConsistentCache store c)
    (s e : ℤ) :
    ∃ c2, getCompositionChanges store c s e =
        Except.ok (changesList store (dateRange s e), c2) ∧ ConsistentCache store c2 := by
  rcases changes_fold store (dateRange s e) [] c hc with ⟨c2, hfold, hc2⟩
  exact ⟨c2, by rw [getCompositionChanges, hfold, List.nil_append], hc2⟩

lemma dateRange_nodup (s e : ℤ) : (dateRange s e).Nodup := by
  unfold dateRange
  refine List.Nodup.map ?_ (List.nodup_range _)
  intro a b h
  have h2 : s + (a : ℤ) = s + (b : ℤ) := h
  omega

lemma perfScan_eq (c : Cache) :
    ∀ (days : List ℤ) (g : List (ℤ × ℚ)) (m : List ℤ),
      days.foldl (perfScanStep c) (g, m) =
        (g ++ days.filterMap
            (fun d => ((cacheGet c (Key.perfDaily d)).bind cvalToFloat).map (fun q => (d, q))),
         m ++ days.filter
            (fun d => ((cacheGet c (Key.perfDaily d)).bind cvalToFloat).isNone)) := by
  intro days
  induction days with
  | nil => intro g m; simp
  | cons d rest ih =>
      intro g m
      rw [List.foldl_cons, List.filterMap_cons, List.filter_cons]
      cases hv : (cacheGet c (Key.perfDaily d)).bind cvalToFloat with
      | some q =>
          have hstep : perfScanStep c (g, m) d = (g ++ [(d, q)], m) := by
            unfold perfScanStep
            rw [hv]
          rw [hstep, ih]
          simp [hv]
      | none =>
          have hstep : perfScanStep c (g, m) d = (g, m ++ [d]) := by
            unfold perfScanStep
            rw [hv]
          rw [hstep, ih]
          simp [hv]

lemma perfLookup_mem (store : Store) (d : ℤ) (q : ℚ) (h : perfLookup store d = some q) :
    (d, q) ∈ store.perf := by
  unfold perfLookup at h
  cases hf : store.perf.find? (fun p => p.1 = d) with
  | none => rw [hf] at h; exact absurd h (by simp)
  | some x =>
      rw [hf] at h
      have hx := List.find?_some hf
      simp only [decide_eq_true_eq] at hx
      have hmem := List.mem_of_find?_eq_some hf
      have h2 : x.2 = q := by simpa using h
      have h3 : x = (d, q) := by
        rcases x with ⟨x1, x2⟩
        simp only at hx h2
        rw [hx, h2]
      rwa [h3] at hmem

lemma mem_perfLookup (store : Store) (hpn : PerfNodup store) (d : ℤ) (q : ℚ)
    (h : (d, q) ∈ store.perf) : perfLookup store d = some q := by
  unfold perfLookup
  have hsome : (store.perf.find? (fun p => p.1 = d)).isSome := by
    rw [List.find?_isSome]
    exact ⟨(d, q), h, by simp⟩
  rcases Option.isSome_iff_exists.mp hsome with ⟨x, hx⟩
  have hxm := List.mem_of_find?_eq_some hx
  have hxp := List.find?_some hx
  simp only [decide_eq_true_eq] at hxp
  have h3 : x = (d, q) := List.inj_on_of_nodup_map hpn hxm h (by simpa using hxp)
  rw [hx, h3]
  rfl

lemma got_map_fst (hb : ℤ → Option ℚ) :
    ∀ days : List ℤ,
      (days.filterMap (fun d => (hb d).map (fun q => (d, q)))).map Prod.fst =
        days.filter (fun d => (hb d).isSome) := by
  intro days
  induction days with
  | nil => rfl
  | cons d rest ih =>
      rw [List.filterMap_cons, List.filter_cons]
      cases h : hb d with
      | none => simpa [h] using ih
      | some q => simpa [h] using ih

lemma mem_got (hb : ℤ → Option ℚ) (days : List ℤ) (d : ℤ) (q : ℚ) :
    (d, q) ∈ days.filterMap (fun x => (hb x).map (fun p => (x, p))) ↔
      d ∈ days ∧ hb d = some q := by
  rw [List.mem_filterMap]
  constructor
  · rintro ⟨a, ha, hfa⟩
    cases h : hb a with
    | none => rw [h] at hfa; exact absurd hfa (by simp)
    | some p =>
        rw [h] at hfa
        have : (a, p) = (d, q) := by simpa using hfa
        have h1 : a = d := congrArg Prod.fst this
        have h2 : p = q := congrArg Prod.snd this
        subst h1
        subst h2
        exact ⟨ha, h⟩
  · rintro ⟨hd, hq⟩
    exact ⟨d, hd, by rw [hq]; rfl⟩

lemma isNone_eq_bnot_isSome (o : Option ℚ) : o.isNone = !o.isSome := by
  cases o <;> rfl

lemma perf_assembled_perm (store : Store) (hpn : PerfNodup store) (c : Cache)
    (hc : ConsistentCache store c) (s e : ℤ) :
    (perfAssembled store c s e).Perm (perfFetch store (dateRange s e)) := by
  have hbmem : ∀ d q, (cacheGet c (Key.perfDaily d)).bind cvalToFloat = some q →
      perfLookup store d = some q := by
    intro d q h
    cases hg : cacheGet c (Key.perfDaily d) with
    | none => rw [hg] at h; exact absurd h (by simp)
    | some v =>
        rw [hg] at h
        have hcv := hc _ _ hg
        simp only [entryConsistent] at hcv
        rcases hcv with ⟨q2, hq2, hv⟩
        subst hv
        simp only [Option.some_bind, cvalToFloat] at h
        injection h with h
        rw [← h]
        exact hq2
  have hhits : perfHits c (dateRange s e) =
      (dateRange s e).filterMap
        (fun d => ((cacheGet c (Key.perfDaily d)).bind cvalToFloat).map (fun q => (d, q))) := by
    unfold perfHits
    rw [perfScan_eq, List.nil_append]
  have hmiss : perfMissing c (dateRange s e) =
      (dateRange s e).filter
        (fun d => ((cacheGet c (Key.perfDaily d)).bind cvalToFloat).isNone) := by
    unfold perfMissing
    rw [perfScan_eq]
    rfl
  have hgot_perm : ((dateRange s e).filterMap
        (fun d => ((cacheGet c (Key.perfDaily d)).bind cvalToFloat).map (fun q => (d, q)))).Perm
      (store.perf.filter (fun p =>
        ((cacheGet c (Key.perfDaily p.1)).bind cvalToFloat).isSome &&
          (dateRange s e).contains p.1)) := by
    refine (List.perm_ext_iff_of_nodup ?_ ?_).mpr ?_
    · refine List.Nodup.of_map Prod.fst ?_
      rw [got_map_fst]
      exact (dateRange_nodup s e).filter _
    · refine List.Nodup.of_map Prod.fst ?_
      exact List.Nodup.sublist (List.Sublist.map _ (List.filter_sublist _)) hpn
    · rintro ⟨d, q⟩
      rw [mem_got, List.mem_filter]
      constructor
      · rintro ⟨hd, hq⟩
        have hl := hbmem d q hq
        refine ⟨perfLookup_mem store d q hl, ?_⟩
        rw [Bool.and_eq_true]
        exact ⟨by rw [hq]; rfl, (contains_iff _ _).mpr hd⟩
      · rintro ⟨hmem, hcond⟩
        rw [Bool.and_eq_true] at hcond
        rcases hcond with ⟨hsome, hcont⟩
        have hd : d ∈ dateRange s e := (contains_iff _ _).mp hcont
        rcases Option.isSome_iff_exists.mp hsome with ⟨q2, hq2⟩
        have hl2 := hbmem d q2 hq2
        have hlq := mem_perfLookup store hpn d q hmem
        rw [hlq] at hl2
        injection hl2 with hl2
        refine ⟨hd, ?_⟩
        rw [hq2, hl2]
  have hmiss_filter : store.perf.filter
        (fun p => (perfMissing c (dateRange s e)).contains p.1) =
      store.perf.filter (fun p =>
        (!((cacheGet c (Key.perfDaily p.1)).bind cvalToFloat).isSome) &&
          (dateRange s e).contains p.1) := by
    apply List.filter_congr
    intro p hp
    rw [Bool.eq_iff_iff, Bool.and_eq_true, contains_iff, hmiss, List.mem_filter]
    rw [isNone_eq_bnot_isSome]
    constructor
    · rintro ⟨h1, h2⟩
      exact ⟨h2, (contains_iff _ _).mpr h1⟩
    · rintro ⟨h1, h2⟩
      exact ⟨(contains_iff _ _).mp h2, h1⟩
  have hsplit := List.filter_append_perm
    (fun p : ℤ × ℚ => ((cacheGet c (Key.perfDaily p.1)).bind cvalToFloat).isSome)
    (store.perf.filter (fun p => (dateRange s e).contains p.1))
  rw [List.filter_filter, List.filter_filter] at hsplit
  unfold perfAssembled perfFetch
  rw [hhits, hmiss_filter]
  exact ((hgot_perm.append (List.perm_insertionSort _ _)).trans hsplit).trans
    (List.perm_insertionSort _ _).symm

lemma perfFetch_fst_nodup (store : Store) (hpn : PerfNodup store) (missing : List ℤ) :
    ((perfFetch store missing).map Prod.fst).Nodup := by
  unfold perfFetch
  refine (((List.perm_insertionSort _ _).map Prod.fst).nodup_iff).mpr ?_
  exact List.Nodup.sublist (List.Sublist.map _ (List.filter_sublist _)) hpn

lemma perfFetch_subset (store : Store) (missing : List ℤ) :
    ∀ p ∈ perfFetch store missing, p ∈ store.perf := by
  intro p hp
  have h2 := (List.perm_insertionSort _ _).mem_iff.mp hp
  exact (List.mem_filter.mp h2).1

lemma consistent_foldDaily (store : Store) (hpn : PerfNodup store) :
    ∀ l : List (ℤ × ℚ), (∀ p ∈ l, p ∈ store.perf) →
      ∀ c : Cache, ConsistentCache store c →
      ConsistentCache store
        (l.foldl (fun c2 p => cacheSet c2 (Key.perfDaily p.1) (CVal.num p.2)) c) := by
  intro l
  induction l with
  | nil => intro _ c hc; exact hc
  | cons p rest ih =>
      intro hsub c hc
      rw [List.foldl_cons]
      refine ih (fun q hq => hsub q (List.mem_cons_of_mem _ hq)) _ ?_
      refine consistent_set store c hc _ _ ?_
      exact ⟨p.2, mem_perfLookup store hpn p.1 p.2 (hsub p (List.mem_cons_self _ _)), rfl⟩

lemma perf_transparent (store : Store) (hpn : PerfNodup store) (c : Cache)
    (hc : ConsistentCache store c) (s e : ℤ) :
    perfEquiv (getPerformance store c s e).1
      (CVal.perfVal (perfFetch store (dateRange s e))
        (cumulativeOf (perfFetch store (dateRange s e)))) ∧
    ConsistentCache store (getPerformance store c s e).2 := by
  cases hget : cacheGet c (Key.perfRange s e) with
  | some v =>
      have heq : getPerformance store c s e = (v, c) := by
        unfold getPerformance
        rw [hget]
      rw [heq]
      have hcv := hc _ _ hget
      simp only [entryConsistent] at hcv
      rcases hcv with ⟨D, hD, hv⟩
      subst hv
      exact ⟨⟨hD, cumulativeOf_perm D _ hD⟩, hc⟩
  | none =>
      have heq : getPerformance store c s e =
          (CVal.perfVal (perfAssembled store c s e)
             (cumulativeOf (perfAssembled store c s e)),
           cacheSet
             ((perfFetch store (perfMissing c (dateRange s e))).foldl
                (fun c2 p => cacheSet c2 (Key.perfDaily p.1) (CVal.num p.2)) c)
             (Key.perfRange s e)
             (CVal.perfVal (perfAssembled store c s e)
                (cumulativeOf (perfAssembled store c s e)))) := by
        unfold getPerformance
        rw [hget]
      rw [heq]
      have hperm := perf_assembled_perm store hpn c hc s e
      refine ⟨⟨hperm, ?_⟩, ?_⟩
      · exact cumulativeOf_perm _ _ hperm
      · refine consistent_set store _ ?_ _ _ ?_
        · exact consistent_foldDaily store hpn _ (perfFetch_subset store _) c hc
        · exact ⟨perfAssembled store c s e, hperm, rfl⟩

lemma perfHits_nil (days : List ℤ) : perfHits [] days = [] := by
  unfold perfHits
  rw [perfScan_eq]
  simp [cacheGet]

lemma perfMissing_nil (days : List ℤ) : perfMissing [] days = days := by
  unfold perfMissing
  rw [perfScan_eq]
  simp [cacheGet]

lemma perfAssembled_nil (store : Store) (s e : ℤ) :
    perfAssembled store [] s e = perfFetch store (dateRange s e) := by
  unfold perfAssembled
  rw [perfHits_nil, perfMissing_nil, List.nil_append]

lemma getPerf_nil (store : Store) (s e : ℤ) :
    (getPerformance store [] s e).1 =
      CVal.perfVal (perfFetch store (dateRange s e))
        (cumulativeOf (perfFetch store (dateRange s e))) := by
  show CVal.perfVal (perfAssembled store [] s e) (cumulativeOf (perfAssembled store [] s e)) = _
  rw [perfAssembled_nil]

lemma buildDay_canon (store : Store) (st : BuildState)
    (hprev : st.prev = st.cur - 1) (hc : ConsistentCache store st.cache) :
    ((buildDay store st).dates = st.dates ++
        (match computeDailyReturn store.daily st.prev st.cur with
         | some (some _) => [st.cur] | _ => []) ∧
     (buildDay store st).returns = st.returns ++
        (match computeDailyReturn store.daily st.prev st.cur with
         | some (some r) => [r] | _ => []) ∧
     (buildDay store st).cum =
        (match computeDailyReturn store.daily st.prev st.cur with
         | some (some r) => st.cum * (1 + r) | _ => st.cum)) ∧
    ConsistentCache store (buildDay store st).cache ∧
    (buildDay store st).prev = st.prev ∧ (buildDay store st).cur = st.cur := by
  unfold buildDay
  cases hget2 : (cacheGet st.cache (Key.dailyReturn st.cur)).bind cvalToFloat with
  | some r =>
      have hcomp : computeDailyReturn store.daily st.prev st.cur = some (some r) := by
        cases hg : cacheGet st.cache (Key.dailyReturn st.cur) with
        | none => rw [hg] at hget2; exact absurd hget2 (by simp)
        | some v =>
            rw [hg] at hget2
            have hcv := hc _ _ hg
            simp only [entryConsistent] at hcv
            rcases hcv with ⟨q, hq, hv⟩
            subst hv
            simp only [Option.some_bind, cvalToFloat] at hget2
            injection hget2 with hget2
            rw [hprev, ← hget2]
            exact hq
      rw [hcomp]
      exact ⟨⟨rfl, rfl, rfl⟩, hc, rfl, rfl⟩
  | none =>
      cases hcomp : computeDailyReturn store.daily st.prev st.cur with
      | none =>
          exact ⟨⟨(List.append_nil _).symm, (List.append_nil _).symm, rfl⟩, hc, rfl, rfl⟩
      | some o =>
          cases o with
          | none =>
              exact ⟨⟨(List.append_nil _).symm, (List.append_nil _).symm, rfl⟩, hc, rfl, rfl⟩
          | some r =>
              refine ⟨⟨rfl, rfl, rfl⟩, ?_, rfl, rfl⟩
              refine consistent_set store st.cache hc _ _ ?_
              exact ⟨r, by rw [← hprev]; exact hcomp, rfl⟩

lemma buildLoop_bisim (store : Store) (e : ℤ) :
    ∀ (fuel : ℕ) (st1 st2 : BuildState),
      st1.prev = st2.prev → st1.cur = st2.cur → st1.dates = st2.dates →
      st1.returns = st2.returns → st1.cum = st2.cum →
      st1.prev = st1.cur - 1 →
      ConsistentCache store st1.cache → ConsistentCache store st2.cache →
      (buildLoop store e fuel st1 = none ∧ buildLoop store e fuel st2 = none) ∨
      (∃ r1 r2, buildLoop store e fuel st1 = some r1 ∧ buildLoop store e fuel st2 = some r2 ∧
        r1.dates = r2.dates ∧ r1.returns = r2.returns ∧ r1.cum = r2.cum ∧
        ConsistentCache store r1.cache ∧ ConsistentCache store r2.cache) := by
  intro fuel
  induction fuel with
  | zero =>
      intro st1 st2 _ _ _ _ _ _ _ _
      exact Or.inl ⟨rfl, rfl⟩
  | succ fuel ih =>
      intro st1 st2 hprev hcur hdates hrets hcum hpc hc1 hc2
      simp only [buildLoop]
      rw [← hcur]
      by_cases hend : e < st1.cur
      · rw [if_pos hend, if_pos hend]
        exact Or.inr ⟨st1, st2, rfl, rfl, hdates, hrets, hcum, hc1, hc2⟩
      · rw [if_neg hend, if_neg hend]
        by_cases hwk : 5 < pyWeekday st1.cur
        · rw [if_pos hwk, if_pos hwk]
          exact ih st1 st2 hprev hcur hdates hrets hcum hpc hc1 hc2
        · rw [if_neg hwk, if_neg hwk]
          obtain ⟨⟨hd1, hr1, hm1⟩, hcc1, _, _⟩ := buildDay_canon store st1 hpc hc1
          have hpc2 : st2.prev = st2.cur - 1 := by rw [← hprev, ← hcur]; exact hpc
          obtain ⟨⟨hd2, hr2, hm2⟩, hcc2, _, _⟩ := buildDay_canon store st2 hpc2 hc2
          refine ih _ _ rfl rfl ?_ ?_ ?_ ?_ hcc1 hcc2
          · show (buildDay store st1).dates = (buildDay store st2).dates
            rw [hd1, hd2, hdates, hprev, hcur]
          · show (buildDay store st1).returns = (buildDay store st2).returns
            rw [hr1, hr2, hrets, hprev, hcur]
          · show (buildDay store st1).cum = (buildDay store st2).cum
            rw [hm1, hm2, hcum, hprev, hcur]
          · show st1.cur = st1.cur + 1 - 1
            omega

lemma buildIndex_bisim (store : Store) (c : Cache) (hc : ConsistentCache store c)
    (fuel : ℕ) (s e : ℤ) :
    (buildIndex fuel store c s e = none ∧ buildIndex fuel store [] s e = none) ∨
    (∃ res st2 c1 c2, buildIndex fuel store c s e = some (res, st2, c1) ∧
       buildIndex fuel store [] s e = some (res, st2, c2)) := by
  have hb := buildLoop_bisim store e fuel ⟨s - 1, s, [], [], 1, c⟩ ⟨s - 1, s, [], [], 1, []⟩
    rfl rfl rfl rfl rfl rfl hc (consistent_nil store)
  rcases hb with ⟨h1, h2⟩ | ⟨r1, r2, h1, h2, hd, hr, hm, _, _⟩
  · refine Or.inl ⟨?_, ?_⟩
    · unfold buildIndex; rw [h1]
    · unfold buildIndex; rw [h2]
  · refine Or.inr ⟨⟨r1.dates.zip r1.returns, r1.cum - 1⟩,
      { store with perf := upsertPerfMany store.perf (r1.dates.zip r1.returns) },
      cacheSet r1.cache (Key.cumulativeRange s e) (CVal.num (r1.cum - 1)),
      cacheSet r2.cache (Key.cumulativeRange s e) (CVal.num (r1.cum - 1)), ?_, ?_⟩
    · unfold buildIndex; rw [h1]
    · unfold buildIndex
      rw [h2]
      simp only [hd, hr, hm]

/-- Cache states producible from the empty cache by prior runs of the
read-only operations (get_performance, get_composition_changes,
get_composition_for_date) over the same unchanged persistent store. -/
inductive ReachableRO (store : Store) : Cache → Prop
  | nil : ReachableRO store []
  | perf (c : Cache) (s e : ℤ) : ReachableRO store c →
      ReachableRO store (getPerformance store c s e).2
  | changes (c : Cache) (s e : ℤ) (res : List (ℤ × List String × List String))
      (c2 : Cache) : ReachableRO store c →
      getCompositionChanges store c s e = Except.ok (res, c2) → ReachableRO store c2
  | compFor (c : Cache) (d : ℤ) : ReachableRO store c →
      ReachableRO store (getCompositionForDate store c d).2

lemma reachable_consistent (store : Store) (hpn : PerfNodup store) :
    ∀ c : Cache, ReachableRO store c → ConsistentCache store c := by
  intro c hr
  induction hr with
  | nil => exact consistent_nil store
  | perf c s e _ ih => exact (perf_transparent store hpn c ih s e).2
  | changes c s e res c2 _ heq ih =>
      rcases changes_transparent store c ih s e with ⟨c3, heq2, hc3⟩
      rw [heq] at heq2
      injection heq2 with heq2
      have hc23 : c2 = c3 := congrArg Prod.snd heq2
      rw [hc23]
      exact hc3
  | compFor c d _ ih => exact (compFor_transparent store c ih d).2

/-- Claim C7 (amended): cache state CAN change returned values when it is
stale relative to the store (counterexample: a perfRange entry cached
before build_index wrote the table). For every cache state reachable from
the empty cache by prior runs of the read-only operations over the same
unchanged persistent store - all such states are consistent with that
store - every operation returns the same values as with the cache empty:
build_index yields the same result and the same store update (or runs out
of fuel on both sides), get_performance the same daily_returns dict up to
dict key order and the same cumulative return, get_composition_changes
the same changes-by-date list, get_composition_for_date the same
snapshot. Cache state then affects cost only, never results. Uses the
index_performance primary-key invariant (distinct dates). -/
theorem cache_transparent_for_reachable_caches
    (store : Store) (hpn : PerfNodup store) (c : Cache)
    (hr : ReachableRO store c) :
    ConsistentCache store c ∧
    (∀ fuel s e,
       (buildIndex fuel store c s e = none ∧ buildIndex fuel store [] s e = none) ∨
       (∃ res st2 c1 c2, buildIndex fuel store c s e = some (res, st2, c1) ∧
          buildIndex fuel store [] s e = some (res, st2, c2))) ∧
    (∀ s e, perfEquiv (getPerformance store c s e).1 (getPerformance store [] s e).1) ∧
    (∀ s e, ∃ c1 c2,
       getCompositionChanges store c s e =
         Except.ok (changesList store (dateRange s e), c1) ∧
       getCompositionChanges store [] s e =
         Except.ok (changesList store (dateRange s e), c2)) ∧
    (∀ d, (getCompositionForDate store c d).1 = (getCompositionForDate store [] d).1) := by
  have hc : ConsistentCache store c := reachable_consistent store hpn c hr
  refine ⟨hc, ?_, ?_, ?_, ?_⟩
  · intro fuel s e
    exact buildIndex_bisim store c hc fuel s e
  · intro s e
    rw [getPerf_nil]
    exact (perf_transparent store hpn c hc s e).1
  · intro s e
    rcases changes_transparent store c hc s e with ⟨c1, h1, _⟩
    rcases changes_transparent store [] (consistent_nil store) s e with ⟨c2, h2, _⟩
    exact ⟨c1, c2, h1, h2⟩
  · intro d
    rw [(compFor_transparent store c hc d).1,
      (compFor_transparent store [] (consistent_nil store) d).1]

/-- Witness for the amended C7 theorem: the concrete store of the
counterexample satisfies the primary-key invariant, the cache left by a
prior get_performance(2,2) run is reachable by read-only operations, and
the theorem applies to it. -/
theorem cache_transparent_for_reachable_caches_witness :
    PerfNodup c7store ∧
    ReachableRO c7store (getPerformance c7store [] 2 2).2 ∧
    perfEquiv (getPerformance c7store (getPerformance c7store [] 2 2).2 2 2).1
      (getPerformance c7store [] 2 2).1 :=
  ⟨by unfold PerfNodup; decide,
   ReachableRO.perf [] 2 2 ReachableRO.nil,
   (cache_transparent_for_reachable_caches c7store (by unfold PerfNodup; decide)
      (getPerformance c7store [] 2 2).2
      (ReachableRO.perf [] 2 2 ReachableRO.nil)).2.2.1 2 2⟩
